import Mathlib

/-!
Verification of the rsynx delta-sync engine.

The definitions below are a shallow embedding of the Rust sources:
  src/sync.rs         (checksum primitives, signature builder)
  src/local_sync.rs   (local sliding-window scanner and mmap reassembly)
  src/network_sync.rs (network client scanner and server reassembly)

Bytes are modelled as natural numbers; machine integers are modelled as
naturals with explicit reduction modulo 2^32 (u32 wrapping arithmetic)
or 2^16 (the two 16-bit halves of the weak checksum).  Fallible
operations (read_exact, slice copies that would abort on a length
mismatch) return Option.  SHA-256 is modelled as an explicit function
parameter strongF, since its only relevant property is which byte
strings it distinguishes.
-/

namespace Rsynx

/-- Wrapping u32 addition: models Rust u32 wrapping_add. -/
def wadd32 (x y : Nat) : Nat := (x + y) % 4294967296

/-- Wrapping u32 subtraction: models Rust u32 wrapping_sub on values
below 2^32. -/
def wsub32 (x y : Nat) : Nat := (x + 4294967296 - y % 4294967296) % 4294967296

/-- Wrapping u32 multiplication: models Rust u32 wrapping_mul composed
with the truncating casts of its operands. -/
def wmul32 (x y : Nat) : Nat := (x * y) % 4294967296

/-- One step of the accumulator pair of Syncer::calculate_weak_checksum
(src/sync.rs lines 252-255): a = a.wrapping_add(byte); b = b.wrapping_add(a). -/
def weakStep (ab : Nat × Nat) (byte : Nat) : Nat × Nat :=
  (wadd32 ab.1 byte, wadd32 ab.2 (wadd32 ab.1 byte))

/-- Syncer::calculate_weak_checksum (src/sync.rs lines 248-257).
The final line (a AND 0xffff) OR ((b AND 0xffff) shifted left 16) is
written as addition because the two halves occupy disjoint bits. -/
def calculate_weak_checksum (data : List Nat) : Nat :=
  let ab := data.foldl weakStep (0, 0)
  ab.1 % 65536 + (ab.2 % 65536) * 65536

/-- Syncer::update_weak_checksum (src/sync.rs lines 266-272).
a_old is old_sum AND 0xffff; b_old is (old_sum shifted right 16) AND 0xffff. -/
def update_weak_checksum (old_byte new_byte old_sum len : Nat) : Nat :=
  let a_old := old_sum % 65536
  let b_old := (old_sum / 65536) % 65536
  let a_new := wadd32 (wsub32 a_old old_byte) new_byte
  let b_new := wadd32 (wsub32 b_old (wmul32 len old_byte)) a_new
  a_new % 65536 + (b_new % 65536) * 65536

/-- The weighted sum over i of (n - i) * l[i], which the b accumulator
tracks modulo 2^32. -/
def weightedSum : List Nat → Nat
  | [] => 0
  | d :: ds => (ds.length + 1) * d + weightedSum ds

lemma weightedSum_append_singleton (l : List Nat) (x : Nat) :
    weightedSum (l ++ [x]) = weightedSum l + l.sum + x := by
  induction l with
  | nil => simp [weightedSum]
  | cons d ds ih =>
      simp only [List.cons_append, weightedSum, List.append_eq, List.length_append,
        List.length_cons, List.length_nil, ih, List.sum_cons]
      ring

lemma cast_big_zero : ((4294967296 : Nat) : ZMod 65536) = 0 := by
  rw [show (4294967296 : Nat) = 65536 * 65536 from rfl, Nat.cast_mul, ZMod.natCast_self,
    zero_mul]

/-- Casting a value reduced modulo 2^32 into ZMod 65536 forgets the
reduction, because 65536 divides 4294967296. -/
lemma cast_mod32 (x : Nat) : ((x % 4294967296 : Nat) : ZMod 65536) = (x : ZMod 65536) := by
  conv_rhs => rw [← Nat.mod_add_div x 4294967296]
  rw [Nat.cast_add, Nat.cast_mul, cast_big_zero, zero_mul, add_zero]

lemma cast_mod16 (x : Nat) : ((x % 65536 : Nat) : ZMod 65536) = (x : ZMod 65536) :=
  ZMod.natCast_mod x 65536

lemma cast_wadd32 (x y : Nat) :
    ((wadd32 x y : Nat) : ZMod 65536) = (x : ZMod 65536) + y := by
  rw [wadd32, cast_mod32, Nat.cast_add]

lemma cast_wsub32 (x y : Nat) :
    ((wsub32 x y : Nat) : ZMod 65536) = (x : ZMod 65536) - y := by
  have hle : y % 4294967296 ≤ x + 4294967296 := by
    have := Nat.mod_lt y (show 0 < 4294967296 by norm_num)
    omega
  calc ((wsub32 x y : Nat) : ZMod 65536)
      = ((x + 4294967296 - y % 4294967296 : Nat) : ZMod 65536) := by rw [wsub32, cast_mod32]
    _ = ((x + 4294967296 : Nat) : ZMod 65536) - ((y % 4294967296 : Nat) : ZMod 65536) :=
        Nat.cast_sub hle
    _ = (x : ZMod 65536) + ((4294967296 : Nat) : ZMod 65536) - (y : ZMod 65536) := by
        rw [Nat.cast_add, cast_mod32]
    _ = (x : ZMod 65536) - y := by rw [cast_big_zero, add_zero]

lemma cast_wmul32 (x y : Nat) :
    ((wmul32 x y : Nat) : ZMod 65536) = (x : ZMod 65536) * y := by
  rw [wmul32, cast_mod32, Nat.cast_mul]

lemma mod32_eq_of_cast {x y : Nat}
    (h : ((x : Nat) : ZMod 4294967296) = ((y : Nat) : ZMod 4294967296)) :
    x % 4294967296 = y % 4294967296 :=
  (ZMod.natCast_eq_natCast_iff x y 4294967296).1 h

lemma mod16_eq_of_cast {x y : Nat}
    (h : ((x : Nat) : ZMod 65536) = ((y : Nat) : ZMod 65536)) :
    x % 65536 = y % 65536 :=
  (ZMod.natCast_eq_natCast_iff x y 65536).1 h

/-- Characterization of the accumulator fold: starting from any reduced
pair, the a accumulator ends at the byte sum and the b accumulator at
the weighted sum, each modulo 2^32. -/
lemma foldl_weakStep_spec (l : List Nat) : ∀ a b : Nat,
    a < 4294967296 → b < 4294967296 →
    l.foldl weakStep (a, b)
      = ((a + l.sum) % 4294967296,
         (b + l.length * a + weightedSum l) % 4294967296) := by
  induction l with
  | nil =>
      intro a b ha hb
      simp only [List.foldl_nil, List.sum_nil, List.length_nil, weightedSum, add_zero,
        zero_mul, Nat.mod_eq_of_lt ha, Nat.mod_eq_of_lt hb]
  | cons d ds ih =>
      intro a b ha hb
      have hstep : weakStep (a, b) d = ((a + d) % 4294967296,
          (b + (a + d) % 4294967296) % 4294967296) := rfl
      rw [List.foldl_cons, hstep,
        ih _ _ (Nat.mod_lt _ (by norm_num)) (Nat.mod_lt _ (by norm_num))]
      rw [Prod.mk.injEq]
      constructor
      · apply mod32_eq_of_cast
        rw [List.sum_cons]
        push_cast [ZMod.natCast_mod]
        ring
      · apply mod32_eq_of_cast
        rw [List.length_cons,
          show weightedSum (d :: ds) = (ds.length + 1) * d + weightedSum ds from rfl]
        push_cast [ZMod.natCast_mod]
        ring

/-- The weak checksum packs the byte sum (low half) and the weighted
sum (high half), each reduced modulo 2^16. -/
lemma calculate_weak_checksum_spec (l : List Nat) :
    calculate_weak_checksum l = l.sum % 65536 + (weightedSum l % 65536) * 65536 := by
  have hdvd : (65536 : Nat) ∣ 4294967296 := ⟨65536, rfl⟩
  unfold calculate_weak_checksum
  rw [foldl_weakStep_spec l 0 0 (by norm_num) (by norm_num)]
  simp only [zero_add, mul_zero, add_zero, Nat.mod_mod_of_dvd _ hdvd]

/-- Core rolling identity: updating the checksum of the window
(w0 :: rest) with departing byte w0 and arriving byte b yields the
checksum of the shifted window (rest ++ [b]). -/
lemma update_weak_checksum_rolls (w0 : Nat) (rest : List Nat) (b : Nat) :
    update_weak_checksum w0 b (calculate_weak_checksum (w0 :: rest)) (rest.length + 1)
      = calculate_weak_checksum (rest ++ [b]) := by
  rw [calculate_weak_checksum_spec, calculate_weak_checksum_spec]
  have hA : (w0 :: rest).sum % 65536 < 65536 := Nat.mod_lt _ (by norm_num)
  have hB : weightedSum (w0 :: rest) % 65536 < 65536 := Nat.mod_lt _ (by norm_num)
  set A := (w0 :: rest).sum % 65536 with hAdef
  set Bv := weightedSum (w0 :: rest) % 65536 with hBdef
  have ha_old : (A + Bv * 65536) % 65536 = A := by
    rw [Nat.add_mul_mod_self_right, Nat.mod_eq_of_lt hA]
  have hb_old : (A + Bv * 65536) / 65536 % 65536 = Bv := by
    rw [Nat.add_mul_div_right _ _ (by norm_num : (0:Nat) < 65536),
      Nat.div_eq_of_lt hA, zero_add, Nat.mod_eq_of_lt hB]
  unfold update_weak_checksum
  simp only [ha_old, hb_old]
  have hsum_cast : ((A : Nat) : ZMod 65536) = ((w0 : ZMod 65536) + rest.sum) := by
    rw [hAdef, cast_mod16, List.sum_cons]
    push_cast
    ring
  have hwsum_cast : ((Bv : Nat) : ZMod 65536)
      = ((rest.length : ZMod 65536) + 1) * w0 + weightedSum rest := by
    rw [hBdef, cast_mod16]
    show ((weightedSum (w0 :: rest) : Nat) : ZMod 65536) = _
    rw [show weightedSum (w0 :: rest) = (rest.length + 1) * w0 + weightedSum rest from rfl]
    push_cast
    ring
  have ha_new : (wadd32 (wsub32 A w0) b) % 65536 = (rest.sum + b) % 65536 := by
    apply mod16_eq_of_cast
    rw [cast_wadd32, cast_wsub32, hsum_cast]
    push_cast
    ring
  have ha_new_cast : ((wadd32 (wsub32 A w0) b : Nat) : ZMod 65536)
      = ((rest.sum : ZMod 65536) + b) := by
    rw [cast_wadd32, cast_wsub32, hsum_cast]
    push_cast
    ring
  have hb_new : (wadd32 (wsub32 Bv (wmul32 (rest.length + 1) w0)) (wadd32 (wsub32 A w0) b))
      % 65536 = weightedSum (rest ++ [b]) % 65536 := by
    apply mod16_eq_of_cast
    rw [cast_wadd32, cast_wsub32, cast_wmul32, hwsum_cast, ha_new_cast,
      weightedSum_append_singleton]
    push_cast
    ring
  rw [ha_new, hb_new]
  have hs : (rest ++ [b]).sum = rest.sum + b := by simp
  rw [hs]

/-- Block record of src/sync.rs lines 16-21.  The strong checksum is a
byte string (SHA-256 is modelled by the explicit parameter strongF). -/
structure Block where
  offset : Nat
  size : Nat
  weak_checksum : Nat
  strong_checksum : List Nat
deriving DecidableEq

/-- Iteration body of Syncer::calculate_checksums, with an explicit
fuel bound on the number of loop iterations so that the recursion is
structural and computable by the kernel.  Each iteration reads
read_size = min(block_size, remaining) bytes and advances by that
amount.  Fuel of at least the remaining length always suffices for a
positive block size; the source loop does not terminate for
block_size = 0, which here surfaces as running out of fuel. -/
def checksumsGo (strongF : List Nat → List Nat) (B : Nat) :
    Nat → Nat → List Nat → List Block
  | _, _, [] => []
  | 0, _, _ => []
  | fuel + 1, offset, l =>
      if B = 0 then []
      else
        { offset := offset, size := min B l.length,
          weak_checksum := calculate_weak_checksum (l.take (min B l.length)),
          strong_checksum := strongF (l.take (min B l.length)) } ::
          checksumsGo strongF B fuel (offset + min B l.length) (l.drop B)

/-- Syncer::calculate_checksums (src/sync.rs lines 209-234): partition
the file into blocks of block_size bytes with a short trailing block,
recording offset, size and both checksums per block. -/
def calculate_checksums (strongF : List Nat → List Nat) (B : Nat) (offset : Nat)
    (l : List Nat) : List Block :=
  checksumsGo strongF B l.length offset l

/-- Number of signature blocks for a file of length L: ceiling of L / B. -/
def signature_count (B L : Nat) : Nat := (L + B - 1) / B

lemma signature_count_zero (B : Nat) : signature_count B 0 = 0 := by
  unfold signature_count
  rcases Nat.eq_zero_or_pos B with h | h
  · subst h
    rfl
  · exact Nat.div_eq_of_lt (by omega)

lemma signature_count_succ (B L : Nat) (hB : 1 ≤ B) (hL : 1 ≤ L) :
    signature_count B L = signature_count B (L - B) + 1 := by
  unfold signature_count
  rw [show L + B - 1 = (L - 1) + B from by omega, Nat.add_div_right _ (by omega)]
  rcases le_or_lt L B with h | h
  · rw [show L - B = 0 from by omega, show 0 + B - 1 = B - 1 from by omega,
      Nat.div_eq_of_lt (by omega), Nat.div_eq_of_lt (by omega)]
  · rw [show L - B + B - 1 = L - 1 from by omega]

lemma checksumsGo_succ (strongF : List Nat → List Nat) (B fuel offset : Nat)
    (l : List Nat) (hnil : l ≠ []) :
    checksumsGo strongF B (fuel + 1) offset l
      = if B = 0 then []
        else { offset := offset, size := min B l.length,
               weak_checksum := calculate_weak_checksum (l.take (min B l.length)),
               strong_checksum := strongF (l.take (min B l.length)) } ::
          checksumsGo strongF B fuel (offset + min B l.length) (l.drop B) := by
  rcases l with _ | ⟨d, ds⟩
  · exact absurd rfl hnil
  · rfl

/-- Closed form of the signature builder iteration: block i covers
offsets starting at B * i. -/
lemma checksumsGo_closed (strongF : List Nat → List Nat) (B : Nat) (hB : 1 ≤ B) :
    ∀ (fuel : Nat) (l : List Nat), l.length ≤ fuel → ∀ offset,
    checksumsGo strongF B fuel offset l
      = (List.range (signature_count B l.length)).map (fun i =>
          { offset := offset + B * i, size := min B (l.length - B * i),
            weak_checksum := calculate_weak_checksum ((l.drop (B * i)).take B),
            strong_checksum := strongF ((l.drop (B * i)).take B) : Block }) := by
  intro fuel
  induction fuel with
  | zero =>
      intro l hl offset
      have hnil : l = [] := List.length_eq_zero.mp (by omega)
      subst hnil
      simp [checksumsGo, signature_count_zero]
  | succ n ih =>
      intro l hl offset
      by_cases hnil : l = []
      · subst hnil
        simp [checksumsGo, signature_count_zero]
      · rw [checksumsGo_succ strongF B n offset l hnil, if_neg (by omega)]
        have hL : 1 ≤ l.length := List.length_pos.mpr hnil
        rw [ih (l.drop B) (by simp only [List.length_drop]; omega) (offset + min B l.length)]
        rw [List.length_drop, signature_count_succ B l.length hB hL,
          List.range_succ_eq_map, List.map_cons]
        congr 1
        · have htk : l.take (min B l.length) = l.take B := by
            rw [List.take_eq_take]
            omega
          simp only [Nat.mul_zero, Nat.add_zero, List.drop_zero, Nat.sub_zero, htk]
        · rw [List.map_map]
          apply List.map_congr_left
          intro i hi
          have hi' : i < signature_count B (l.length - B) := List.mem_range.1 hi
          have hm : 1 ≤ signature_count B (l.length - B) := by omega
          have hBL : B < l.length := by
            by_contra hc
            push_neg at hc
            rw [show l.length - B = 0 from by omega, signature_count_zero] at hm
            omega
          have hminB : min B l.length = B := by omega
          have hdd : (l.drop B).drop (B * i) = l.drop (B * (i + 1)) := by
            rw [List.drop_drop, show B + B * i = B * (i + 1) from by ring]
          have harg : l.length - B - B * i = l.length - B * (i + 1) := by
            rw [Nat.sub_sub, show B + B * i = B * (i + 1) from by ring]
          simp only [Function.comp_apply, Nat.succ_eq_add_one, hminB, hdd, harg]
          congr 1
          ring

/-- Lookup of a candidate block: the weak-checksum HashMap of
local_sync.rs lines 73-79 groups blocks by weak checksum in insertion
order, and candidates.iter().find (line 118) confirms on the strong
checksum.  This is equivalent to filtering the block list on the weak
checksum and taking the first strong match. -/
def find_match (blocks : List Block) (weak : Nat) (strong : List Nat) : Option Block :=
  (blocks.filter (fun blk => decide (blk.weak_checksum = weak))).find?
    (fun blk => decide (blk.strong_checksum = strong))

lemma find_match_eq_some {blocks : List Block} {weak : Nat} {strong : List Nat} {b : Block}
    (h : find_match blocks weak strong = some b) :
    b ∈ blocks ∧ b.weak_checksum = weak ∧ b.strong_checksum = strong := by
  unfold find_match at h
  have hmem := List.mem_of_find?_eq_some h
  have hp := List.find?_some h
  rw [List.mem_filter] at hmem
  exact ⟨hmem.1, of_decide_eq_true hmem.2, of_decide_eq_true hp⟩

lemma find_match_isSome {blocks : List Block} {weak : Nat} {strong : List Nat}
    (b : Block) (hb : b ∈ blocks) (hw : b.weak_checksum = weak)
    (hs : b.strong_checksum = strong) :
    (find_match blocks weak strong).isSome := by
  unfold find_match
  rw [List.find?_isSome]
  exact ⟨b, List.mem_filter.2 ⟨hb, by simp [hw]⟩, by simp [hs]⟩

/-- Models seek(pos) followed by read_exact of len bytes: an IO error
results when fewer than len bytes remain. -/
def read_exact (file : List Nat) (pos len : Nat) : Option (List Nat) :=
  if pos + len ≤ file.length then some ((file.drop pos).take len) else none

/-- Models seek(pos) followed by read_to_end. -/
def read_to_end (file : List Nat) (pos : Nat) : List Nat := file.drop pos

/-- Models m[i..j].copy_from_slice(data): the Rust call aborts the
process unless i..j is a valid range of m and data has length j - i. -/
def copy_from_slice (m : List Nat) (i j : Nat) (data : List Nat) : Option (List Nat) :=
  if i ≤ j ∧ j ≤ m.length ∧ data.length = j - i then
    some (m.take i ++ data ++ m.drop j)
  else none

lemma read_exact_ok {file : List Nat} {pos len : Nat} (h : pos + len ≤ file.length) :
    read_exact file pos len = some ((file.drop pos).take len) := if_pos h

lemma read_exact_length {file : List Nat} {pos len : Nat} (h : pos + len ≤ file.length) :
    ((file.drop pos).take len).length = len := by
  rw [List.length_take, List.length_drop]
  omega

lemma copy_from_slice_ok {m : List Nat} {i j : Nat} {data : List Nat}
    (h1 : i ≤ j) (h2 : j ≤ m.length) (h3 : data.length = j - i) :
    copy_from_slice m i j data = some (m.take i ++ data ++ m.drop j) :=
  if_pos ⟨h1, h2, h3⟩

lemma copy_result_length {m : List Nat} {i j : Nat} {data : List Nat}
    (h1 : i ≤ j) (h2 : j ≤ m.length) (h3 : data.length = j - i) :
    (m.take i ++ data ++ m.drop j).length = m.length := by
  simp only [List.length_append, List.length_take, List.length_drop]
  omega

lemma take_of_append_left {l1 l2 : List Nat} {n : Nat} (h : l1.length = n) :
    (l1 ++ l2).take n = l1 := by
  subst h
  exact List.take_left l1 l2

lemma copy_result_take {m : List Nat} {i j : Nat} {data : List Nat}
    (h1 : i ≤ j) (h2 : j ≤ m.length) (h3 : data.length = j - i) :
    (m.take i ++ data ++ m.drop j).take j = m.take i ++ data := by
  rw [List.append_assoc, ← List.append_assoc]
  apply take_of_append_left
  rw [List.length_append, List.length_take]
  omega

lemma take_add_slice (S : List Nat) (a b : Nat) (hab : a ≤ b) :
    S.take a ++ (S.drop a).take (b - a) = S.take b := by
  rw [show b = a + (b - a) from by omega, List.take_add]
  rw [show a + (b - a) - a = b - a from by omega]

/-- Per-file transfer counters (constructed in local_sync.rs lines
202-205 and network_sync.rs line 185; the struct itself lives in the
sync module, its two fields are visible at both construction sites). -/
structure TransferResult where
  new_bytes : Nat
  reused_bytes : Nat
deriving DecidableEq

/-- State of the sliding-window scan loop of LocalSyncer::sync_file
(local_sync.rs lines 108-164).  mmap holds the contents of the
pre-sized temporary file; writes logs every (offset, bytes) slice copy
performed on it, in order, for the write-trace analysis. -/
structure ScanState where
  offset : Nat
  last_match : Nat
  window : List Nat
  weak : Nat
  mmap : List Nat
  reused_bytes : Nat
  writes : List (Nat × List Nat)
deriving DecidableEq

/-- Outcome of running the scan loop: normal exit, abort (an IO error
or a slice-length mismatch), or fuel exhaustion (the source loop would
still be running). -/
inductive ScanResult where
  | done : ScanState → ScanResult
  | fail : ScanState → ScanResult
  | spin : ScanState → ScanResult
deriving DecidableEq

/-- The body of the match branch (local_sync.rs lines 118-135): flush
the pending literal range [last_match, offset), copy the matched
reference block into mmap[offset..offset+B], bump reused_bytes by
block.size and advance offset and last_match by B. -/
def apply_match (S R : List Nat) (B : Nat) (st : ScanState) (block : Block) :
    Option ScanState :=
  match (if st.last_match < st.offset then
           match read_exact S st.last_match (st.offset - st.last_match) with
           | none => none
           | some unmatched =>
               match copy_from_slice st.mmap st.last_match st.offset unmatched with
               | none => none
               | some m1 => some (m1, st.writes ++ [(st.last_match, unmatched)])
         else some (st.mmap, st.writes)) with
  | none => none
  | some (m1, w1) =>
      match read_exact R block.offset block.size with
      | none => none
      | some block_data =>
          match copy_from_slice m1 st.offset (st.offset + B) block_data with
          | none => none
          | some m2 =>
              some { offset := st.offset + B, last_match := st.offset + B,
                     window := st.window, weak := st.weak, mmap := m2,
                     reused_bytes := st.reused_bytes + block.size,
                     writes := w1 ++ [(st.offset, block_data)] }

/-- The while loop of LocalSyncer::sync_file (local_sync.rs lines
115-164), with explicit fuel.  On a confirmed weak-then-strong match
the window advances by B and is reloaded from scratch; otherwise the
window slides by one byte and the weak checksum is updated by the
rolling formula. -/
def sync_file_loop (strongF : List Nat → List Nat) (S R : List Nat) (blocks : List Block)
    (B : Nat) : Nat → ScanState → ScanResult
  | 0, st => .spin st
  | fuel + 1, st =>
    if st.offset + B ≤ S.length then
      match find_match blocks st.weak (strongF st.window) with
      | some block =>
          match apply_match S R B st block with
          | none => .fail st
          | some st' =>
              if st'.offset + B ≤ S.length then
                match read_exact S st'.offset B with
                | none => .fail st'
                | some w =>
                    sync_file_loop strongF S R blocks B fuel
                      { st' with window := w, weak := calculate_weak_checksum w }
              else .done st'
      | none =>
          match st.window with
          | [] => .fail st
          | w0 :: rest =>
              if st.offset + 1 + B ≤ S.length then
                match read_exact S (st.offset + 1 + B - 1) 1 with
                | none => .fail { st with offset := st.offset + 1 }
                | some nb =>
                    match nb with
                    | [nbyte] =>
                        sync_file_loop strongF S R blocks B fuel
                          { st with
                            offset := st.offset + 1,
                            window := rest ++ [nbyte],
                            weak := update_weak_checksum w0 nbyte st.weak B }
                    | _ => .fail { st with offset := st.offset + 1 }
              else .done { st with offset := st.offset + 1 }
    else .done st

/-- Modelled from the spec: Syncer::copy_file is invoked by
LocalSyncer::sync_file when the destination is absent or the source is
smaller than one block; the TransferResult-returning variant of
copy_file is not under src (the src copy of sync.rs predates
TransferResult).  Spec sections 4.3, 4.5 and 8: a full copy leaves the
destination holding the source bytes with reused_bytes = 0 and
new_bytes equal to the source size. -/
def copy_file (S : List Nat) : List Nat × TransferResult :=
  (S, { new_bytes := S.length, reused_bytes := 0 })

/-- LocalSyncer::sync_file (local_sync.rs lines 64-206) on file
contents: returns the bytes found at the destination path after the
sync together with the TransferResult, or none if the sync surfaced an
error.  The temporary file (pre-sized to the source length, zero
filled) and the reference are assumed to live at distinct paths, so
reference reads during the scan return R. -/
def sync_file (strongF : List Nat → List Nat) (S R : List Nat) (B : Nat)
    (dst_exists : Bool) : Option (List Nat × TransferResult) :=
  if dst_exists = false then some (copy_file S)
  else
    if S.length < B then some (copy_file S)
    else
      match read_exact S 0 (min B S.length) with
      | none => none
      | some window =>
          match sync_file_loop strongF S R (calculate_checksums strongF B 0 R) B
              (S.length + 1)
              { offset := 0, last_match := 0, window := window,
                weak := calculate_weak_checksum window,
                mmap := List.replicate S.length 0, reused_bytes := 0, writes := [] } with
          | .done st =>
              if st.last_match < S.length then
                match copy_from_slice st.mmap st.last_match st.mmap.length
                    (read_to_end S st.last_match) with
                | none => none
                | some m =>
                    some (m, { new_bytes := S.length - st.reused_bytes,
                               reused_bytes := st.reused_bytes })
              else
                some (st.mmap, { new_bytes := S.length - st.reused_bytes,
                                 reused_bytes := st.reused_bytes })
          | _ => none

/-- Reconstruction instruction of the network client
(network_sync.rs lines 100-103). -/
inductive Instruction where
  | data : List Nat → Instruction
  | copy : Nat → Nat → Instruction
deriving DecidableEq

def instruction_is_data : Instruction → Bool
  | .data _ => true
  | .copy _ _ => false

def instruction_is_copy : Instruction → Bool
  | .data _ => false
  | .copy _ _ => true

/-- Total number of bytes the client issues as COPY instructions. -/
def copy_total (l : List Instruction) : Nat :=
  (l.map (fun i => match i with | .copy _ len => len | .data _ => 0)).sum

/-- Total length of the DATA payloads the client sends. -/
def data_total (l : List Instruction) : Nat :=
  (l.map (fun i => match i with | .data d => d.length | .copy _ _ => 0)).sum

/-- State of the network client scan loop (network_sync.rs lines
104-153). -/
structure NetState where
  pos : Nat
  window : List Nat
  current_weak : Nat
  unmatched : List Nat
  instructions : List Instruction
deriving DecidableEq

inductive NetResult where
  | done : NetState → NetResult
  | fail : NetState → NetResult
  | spin : NetState → NetResult
deriving DecidableEq

/-- The while loop of NetworkSyncer::sync (network_sync.rs lines
119-153), with explicit fuel: on a match, flush the unmatched bytes as
one DATA instruction, emit COPY(block offset, block size) and advance
by B; otherwise push the departing window byte onto unmatched and
slide by one. -/
def network_scan_loop (strongF : List Nat → List Nat) (S : List Nat) (blocks : List Block)
    (B : Nat) : Nat → NetState → NetResult
  | 0, st => .spin st
  | fuel + 1, st =>
    if st.pos + B ≤ S.length then
      match find_match blocks st.current_weak (strongF st.window) with
      | some block =>
          let st' : NetState :=
            { pos := st.pos + B, window := st.window, current_weak := st.current_weak,
              unmatched := [],
              instructions := st.instructions ++
                (if st.unmatched = [] then [] else [.data st.unmatched]) ++
                [.copy block.offset block.size] }
          if st'.pos + B ≤ S.length then
            match read_exact S st'.pos B with
            | none => .fail st'
            | some w =>
                network_scan_loop strongF S blocks B fuel
                  { st' with window := w, current_weak := calculate_weak_checksum w }
          else .done st'
      | none =>
          match st.window with
          | [] => .fail st
          | w0 :: rest =>
              if st.pos + 1 + B - 1 < S.length then
                match read_exact S (st.pos + 1 + B - 1) 1 with
                | none => .fail { st with
                                  pos := st.pos + 1,
                                  unmatched := st.unmatched ++ [w0] }
                | some nb =>
                    match nb with
                    | [nbyte] =>
                        network_scan_loop strongF S blocks B fuel
                          { pos := st.pos + 1, window := rest ++ [nbyte],
                            current_weak := update_weak_checksum w0 nbyte st.current_weak B,
                            unmatched := st.unmatched ++ [w0],
                            instructions := st.instructions }
                    | _ => .fail { st with
                                   pos := st.pos + 1,
                                   unmatched := st.unmatched ++ [w0] }
              else .done { st with pos := st.pos + 1, unmatched := st.unmatched ++ [w0] }
    else .done st

/-- NetworkSyncer::sync, instruction generation and returned counters
(network_sync.rs lines 104-186): blocks is the table received from the
server (empty when the server answered NOBLK).  The returned
TransferResult is literally new_bytes = file size, reused_bytes = 0
(line 185).  Returns none if an IO error surfaces. -/
def network_sync (strongF : List Nat → List Nat) (S : List Nat) (blocks : List Block)
    (B : Nat) : Option (List Instruction × TransferResult) :=
  if S.length < B then
    some ([.data S], { new_bytes := S.length, reused_bytes := 0 })
  else
    match read_exact S 0 B with
    | none => none
    | some window =>
        match network_scan_loop strongF S blocks B (S.length + 1)
            { pos := 0, window := window,
              current_weak := calculate_weak_checksum window,
              unmatched := [], instructions := [] } with
        | .done st =>
            if st.pos < S.length then
              some (st.instructions ++
                  (if st.unmatched = [] then [.data (read_to_end S st.pos)]
                   else [.data (st.unmatched ++ read_to_end S st.pos)]),
                { new_bytes := S.length, reused_bytes := 0 })
            else if st.unmatched = [] then
              some (st.instructions, { new_bytes := S.length, reused_bytes := 0 })
            else
              some (st.instructions ++ [.data st.unmatched],
                { new_bytes := S.length, reused_bytes := 0 })
        | _ => none

/-- A file path, reduced to the parts relevant for the temporary-file
scheme: everything before the extension, and the extension (the part
of the file name after the last dot, if any). -/
structure RPath where
  stem : String
  ext : Option String
deriving DecidableEq

/-- Path::with_extension: replace the extension of the file name, or
append one if the name has none. -/
def with_extension (p : RPath) (e : String) : RPath := { stem := p.stem, ext := some e }

/-- A file-mutating operation performed during a sync, in program
order.  Reads are omitted: they cannot change any file. -/
inductive FsOp where
  | createTrunc : RPath → FsOp
  | setLen : RPath → Nat → FsOp
  | write : RPath → Nat → List Nat → FsOp
  | rename : RPath → RPath → FsOp
deriving DecidableEq

def write_slice (m : List Nat) (i : Nat) (data : List Nat) : List Nat :=
  m.take i ++ data ++ m.drop (i + data.length)

/-- Effect of one operation on a simple file system (path to optional
contents).  createTrunc models OpenOptions create+truncate and
File::create; setLen zero-extends or truncates; rename moves the
source over the target. -/
def apply_op (fs : RPath → Option (List Nat)) (op : FsOp) : RPath → Option (List Nat) :=
  match op with
  | .createTrunc p => fun q => if q = p then some [] else fs q
  | .setLen p n => fun q =>
      if q = p then
        some (((fs p).getD []).take n ++ List.replicate (n - ((fs p).getD []).length) 0)
      else fs q
  | .write p off d => fun q =>
      if q = p then some (write_slice ((fs p).getD []) off d) else fs q
  | .rename p p' => fun q => if q = p' then fs p else if q = p then none else fs q

def replay (fs : RPath → Option (List Nat)) (ops : List FsOp) : RPath → Option (List Nat) :=
  ops.foldl apply_op fs

/-- The file mutations performed by LocalSyncer::sync_file, in order:
on the delta path, create and pre-size the temporary sibling, perform
the scan-loop slice writes and the trailing literal write on it, and
rename it over the destination on success (no rename when the run
fails).  On the full-copy paths fs::copy truncates and rewrites the
destination itself (Syncer::copy_file). -/
def local_sync_ops (strongF : List Nat → List Nat) (S R : List Nat) (B : Nat)
    (dst : RPath) (dst_exists : Bool) : List FsOp :=
  if dst_exists = false then [.createTrunc dst, .write dst 0 S]
  else if S.length < B then [.createTrunc dst, .write dst 0 S]
  else
    match read_exact S 0 (min B S.length) with
    | none => []
    | some window =>
        match sync_file_loop strongF S R (calculate_checksums strongF B 0 R) B
            (S.length + 1)
            { offset := 0, last_match := 0, window := window,
              weak := calculate_weak_checksum window,
              mmap := List.replicate S.length 0, reused_bytes := 0, writes := [] } with
        | .done st =>
            [.createTrunc (with_extension dst "tmp"), .setLen (with_extension dst "tmp") S.length] ++
              ((st.writes ++ (if st.last_match < S.length
                  then [(st.last_match, read_to_end S st.last_match)] else [])).map
                (fun w => FsOp.write (with_extension dst "tmp") w.1 w.2)) ++
              [.rename (with_extension dst "tmp") dst]
        | .fail st =>
            [.createTrunc (with_extension dst "tmp"), .setLen (with_extension dst "tmp") S.length] ++
              (st.writes.map (fun w => FsOp.write (with_extension dst "tmp") w.1 w.2))
        | .spin st =>
            [.createTrunc (with_extension dst "tmp"), .setLen (with_extension dst "tmp") S.length] ++
              (st.writes.map (fun w => FsOp.write (with_extension dst "tmp") w.1 w.2))

/-- The sequential writes the network server performs on its temporary
file while consuming the instruction stream (network_sync.rs lines
233-267), with the running output cursor, and whether the stream was
consumed without error (a COPY with no reference file, or a COPY range
past the reference end, aborts the loop with an error). -/
def serve_writes (R : List Nat) (dst_exists : Bool) :
    List Instruction → Nat → List (Nat × List Nat) × Bool
  | [], _ => ([], true)
  | .data d :: rest, cur =>
      ((cur, d) :: (serve_writes R dst_exists rest (cur + d.length)).1,
        (serve_writes R dst_exists rest (cur + d.length)).2)
  | .copy off len :: rest, cur =>
      if dst_exists then
        match read_exact R off len with
        | none => ([], false)
        | some bytes =>
            ((cur, bytes) :: (serve_writes R dst_exists rest (cur + len)).1,
              (serve_writes R dst_exists rest (cur + len)).2)
      else ([], false)

/-- The file mutations performed by NetworkSyncer::serve (lines
225-272): create the temporary sibling, append the reconstructed
stream to it, and rename it over the target only when the instruction
stream was consumed without error. -/
def serve_ops (instrs : List Instruction) (R : List Nat) (dst : RPath)
    (dst_exists : Bool) : List FsOp :=
  FsOp.createTrunc (with_extension dst "tmp") ::
    ((serve_writes R dst_exists instrs 0).1.map
      (fun w => FsOp.write (with_extension dst "tmp") w.1 w.2)) ++
    (if (serve_writes R dst_exists instrs 0).2
      then [FsOp.rename (with_extension dst "tmp") dst] else [])

def ScanResult.isSpin : ScanResult → Bool
  | .spin _ => true
  | _ => false

def NetResult.isSpin : NetResult → Bool
  | .spin _ => true
  | _ => false

lemma read_exact_eq_some {f : List Nat} {p n : Nat} {d : List Nat}
    (h : read_exact f p n = some d) :
    p + n ≤ f.length ∧ d = (f.drop p).take n ∧ d.length = n := by
  by_cases hc : p + n ≤ f.length
  · rw [read_exact, if_pos hc] at h
    have hd : d = (f.drop p).take n := (Option.some.inj h).symm
    refine ⟨hc, hd, ?_⟩
    rw [hd]
    exact read_exact_length hc
  · rw [read_exact, if_neg hc] at h
    exact absurd h (by simp)

lemma copy_from_slice_eq_some {m : List Nat} {i j : Nat} {d m' : List Nat}
    (h : copy_from_slice m i j d = some m') :
    i ≤ j ∧ j ≤ m.length ∧ d.length = j - i ∧ m' = m.take i ++ d ++ m.drop j := by
  by_cases hc : i ≤ j ∧ j ≤ m.length ∧ d.length = j - i
  · rw [copy_from_slice, if_pos hc] at h
    exact ⟨hc.1, hc.2.1, hc.2.2, (Option.some.inj h).symm⟩
  · rw [copy_from_slice, if_neg hc] at h
    exact absurd h (by simp)

/-- Shifting the sliding window: dropping its head and appending the
next source byte yields the window one position to the right. -/
lemma slice_shift (S : List Nat) (p B : Nat) (hB : 1 ≤ B) (h : p + B + 1 ≤ S.length) :
    ∀ w0 rest, (S.drop p).take B = w0 :: rest →
      rest ++ (S.drop (p + B)).take 1 = (S.drop (p + 1)).take B := by
  obtain ⟨b, rfl⟩ : ∃ b, B = b + 1 := ⟨B - 1, by omega⟩
  intro w0 rest hw
  have hp : p < S.length := by omega
  have hpB : p + (b + 1) < S.length := by omega
  have hdp : S.drop p = S.get ⟨p, hp⟩ :: S.drop (p + 1) := by
    rw [List.drop_eq_getElem_cons hp]
    rfl
  rw [hdp, List.take_succ_cons] at hw
  injection hw with hw1 hw2
  have hlast : (S.drop (p + (b + 1))).take 1 = [S.get ⟨p + (b + 1), hpB⟩] := by
    rw [List.drop_eq_getElem_cons hpB]
    rfl
  rw [← hw2, hlast, List.take_succ]
  congr 1
  have hidx : (S.drop (p + 1))[b]? = S[p + 1 + b]? := List.getElem?_drop _ _ _
  rw [hidx, show p + 1 + b = p + (b + 1) from by omega, List.getElem?_eq_getElem hpB]
  rfl

/-- Forward computation of the match branch: with a full-width block
whose range lies in the reference, apply_match succeeds and the new
state is described exactly; the final implication transfers the
written-prefix invariant when the matched block bytes equal the
current source window. -/
lemma apply_match_some (S R : List Nat) (B : Nat) (st : ScanState) (block : Block)
    (hlm : st.last_match ≤ st.offset) (hml : st.mmap.length = S.length)
    (hoff : st.offset + B ≤ S.length)
    (hbo : block.offset + block.size ≤ R.length)
    (hbs : block.size = B) :
    ∃ st', apply_match S R B st block = some st' ∧
      st'.offset = st.offset + B ∧ st'.last_match = st.offset + B ∧
      st'.window = st.window ∧ st'.weak = st.weak ∧
      st'.reused_bytes = st.reused_bytes + block.size ∧
      st'.mmap.length = S.length ∧
      (st.mmap.take st.last_match = S.take st.last_match →
        (R.drop block.offset).take block.size = (S.drop st.offset).take B →
        st'.mmap.take (st.offset + B) = S.take (st.offset + B)) := by
  have hre1 : st.last_match + (st.offset - st.last_match) ≤ S.length := by omega
  have hun : ((S.drop st.last_match).take (st.offset - st.last_match)).length
      = st.offset - st.last_match := read_exact_length hre1
  have hbd : ((R.drop block.offset).take block.size).length = block.size :=
    read_exact_length hbo
  rw [apply_match]
  by_cases hpend : st.last_match < st.offset
  · rw [if_pos hpend, read_exact_ok hre1]
    dsimp only
    rw [copy_from_slice_ok (by omega) (by omega) (by omega)]
    dsimp only
    have hm1len : (st.mmap.take st.last_match
          ++ (S.drop st.last_match).take (st.offset - st.last_match)
          ++ st.mmap.drop st.offset).length = st.mmap.length :=
      copy_result_length (by omega) (by omega) (by omega)
    rw [read_exact_ok hbo]
    dsimp only
    rw [copy_from_slice_ok (by omega) (by rw [hm1len]; omega) (by omega)]
    dsimp only
    refine ⟨_, rfl, rfl, rfl, rfl, rfl, rfl, ?_, ?_⟩
    · rw [copy_result_length (by omega) (by rw [hm1len]; omega) (by omega), hm1len, hml]
    · intro hpre hbytes
      rw [copy_result_take (by omega) (by rw [hm1len]; omega) (by omega)]
      rw [copy_result_take (by omega) (by omega) (by omega)]
      rw [hpre, take_add_slice S st.last_match st.offset (by omega), hbytes,
        show (S.drop st.offset).take B
          = (S.drop st.offset).take (st.offset + B - st.offset) from by congr 1; omega,
        take_add_slice S st.offset (st.offset + B) (by omega)]
  · rw [if_neg hpend]
    have hlm' : st.last_match = st.offset := by omega
    dsimp only
    rw [read_exact_ok hbo]
    dsimp only
    rw [copy_from_slice_ok (by omega) (by omega) (by omega)]
    dsimp only
    refine ⟨_, rfl, rfl, rfl, rfl, rfl, rfl, ?_, ?_⟩
    · rw [copy_result_length (by omega) (by omega) (by omega), hml]
    · intro hpre hbytes
      rw [copy_result_take (by omega) (by omega) (by omega)]
      rw [show st.mmap.take st.offset = st.mmap.take st.last_match from by rw [hlm'],
        hpre, hlm', hbytes,
        show (S.drop st.offset).take B
          = (S.drop st.offset).take (st.offset + B - st.offset) from by congr 1; omega,
        take_add_slice S st.offset (st.offset + B) (by omega)]

/-- Inversion of a successful match step, with no preconditions: the
length check of the B-wide slice copy forces the matched block to be
exactly block wide. -/
lemma apply_match_spec {S R : List Nat} {B : Nat} {st : ScanState} {block : Block}
    {st' : ScanState} (h : apply_match S R B st block = some st') :
    block.size = B ∧
    st'.offset = st.offset + B ∧ st'.last_match = st.offset + B ∧
    st'.reused_bytes = st.reused_bytes + block.size ∧
    st'.mmap.length = st.mmap.length ∧
    st.offset + B ≤ st.mmap.length := by
  rw [apply_match] at h
  by_cases hpend : st.last_match < st.offset
  · rw [if_pos hpend] at h
    cases hre : read_exact S st.last_match (st.offset - st.last_match) with
    | none => rw [hre] at h; cases h
    | some unmatched =>
        rw [hre] at h; dsimp only at h
        cases hc1 : copy_from_slice st.mmap st.last_match st.offset unmatched with
        | none => rw [hc1] at h; cases h
        | some m1 =>
            rw [hc1] at h; dsimp only at h
            cases hre2 : read_exact R block.offset block.size with
            | none => rw [hre2] at h; cases h
            | some block_data =>
                rw [hre2] at h; dsimp only at h
                cases hc2 : copy_from_slice m1 st.offset (st.offset + B) block_data with
                | none => rw [hc2] at h; cases h
                | some m2 =>
                    rw [hc2] at h; dsimp only at h
                    obtain ⟨hd1, hd2, hd3, hd4⟩ := copy_from_slice_eq_some hc2
                    obtain ⟨he1, he2, he3⟩ := read_exact_eq_some hre2
                    obtain ⟨hf1, hf2, hf3, hf4⟩ := copy_from_slice_eq_some hc1
                    have hst' := (Option.some.inj h).symm
                    have hm1len : m1.length = st.mmap.length := by
                      rw [hf4]
                      exact copy_result_length hf1 hf2 hf3
                    have hm2len : m2.length = m1.length := by
                      rw [hd4]
                      exact copy_result_length hd1 hd2 hd3
                    subst hst'
                    refine ⟨by omega, rfl, rfl, rfl, by simpa [hm2len] using hm1len, by omega⟩
  · rw [if_neg hpend] at h
    cases hre2 : read_exact R block.offset block.size with
    | none => rw [hre2] at h; cases h
    | some block_data =>
        rw [hre2] at h; dsimp only at h
        cases hc2 : copy_from_slice st.mmap st.offset (st.offset + B) block_data with
        | none => rw [hc2] at h; cases h
        | some m2 =>
            rw [hc2] at h; dsimp only at h
            obtain ⟨hd1, hd2, hd3, hd4⟩ := copy_from_slice_eq_some hc2
            obtain ⟨he1, he2, he3⟩ := read_exact_eq_some hre2
            have hst' := (Option.some.inj h).symm
            have hm2len : m2.length = st.mmap.length := by
              rw [hd4]
              exact copy_result_length hd1 hd2 hd3
            subst hst'
            exact ⟨by omega, rfl, rfl, rfl, hm2len, by omega⟩

/-- The local scan loop cannot run out of fuel once the fuel exceeds
the number of bytes left: every iteration advances offset by B or by 1
and the loop exits as soon as offset + B exceeds the source length. -/
lemma sync_file_loop_no_spin (strongF : List Nat → List Nat) (S R : List Nat)
    (blocks : List Block) (B : Nat) (hB : 1 ≤ B) :
    ∀ (fuel : Nat) (st : ScanState), S.length - st.offset < fuel →
    (sync_file_loop strongF S R blocks B fuel st).isSpin = false := by
  intro fuel
  induction fuel with
  | zero =>
      intro st h
      omega
  | succ n ih =>
      intro st h
      rw [sync_file_loop]
      by_cases hg : st.offset + B ≤ S.length
      · rw [if_pos hg]
        cases hfm : find_match blocks st.weak (strongF st.window) with
        | none =>
            dsimp only
            cases hw : st.window with
            | nil => rfl
            | cons w0 rest =>
                dsimp only
                by_cases hg2 : st.offset + 1 + B ≤ S.length
                · rw [if_pos hg2]
                  cases hre : read_exact S (st.offset + 1 + B - 1) 1 with
                  | none => rfl
                  | some nb =>
                      dsimp only
                      match nb with
                      | [] => rfl
                      | [nbyte] =>
                          dsimp only
                          apply ih
                          dsimp only
                          omega
                      | a :: b :: t => rfl
                · rw [if_neg hg2]
                  rfl
        | some block =>
            dsimp only
            cases ham : apply_match S R B st block with
            | none => rfl
            | some st' =>
                dsimp only
                have hoff' : st'.offset = st.offset + B := (apply_match_spec ham).2.1
                by_cases hg2 : st'.offset + B ≤ S.length
                · rw [if_pos hg2]
                  cases hre : read_exact S st'.offset B with
                  | none => rfl
                  | some w =>
                      dsimp only
                      apply ih
                      dsimp only
                      omega
                · rw [if_neg hg2]
                  rfl
      · rw [if_neg hg]
        rfl

/-- The local scan loop exits immediately once offset + B exceeds the
source length. -/
lemma sync_file_loop_exit (strongF : List Nat → List Nat) (S R : List Nat)
    (blocks : List Block) (B : Nat) (fuel : Nat) (st : ScanState)
    (h : S.length < st.offset + B) :
    sync_file_loop strongF S R blocks B (fuel + 1) st = .done st := by
  rw [sync_file_loop, if_neg (by omega)]

/-- The scan offset never decreases across the local loop. -/
lemma sync_file_loop_offset_mono (strongF : List Nat → List Nat) (S R : List Nat)
    (blocks : List Block) (B : Nat) :
    ∀ (fuel : Nat) (st st' : ScanState),
    sync_file_loop strongF S R blocks B fuel st = .done st' →
    st.offset ≤ st'.offset := by
  intro fuel
  induction fuel with
  | zero =>
      intro st st' h
      exact ScanResult.noConfusion h
  | succ n ih =>
      intro st st' h
      rw [sync_file_loop] at h
      by_cases hg : st.offset + B ≤ S.length
      · rw [if_pos hg] at h
        cases hfm : find_match blocks st.weak (strongF st.window) with
        | none =>
            rw [hfm] at h
            dsimp only at h
            cases hw : st.window with
            | nil =>
                rw [hw] at h
                exact ScanResult.noConfusion h
            | cons w0 rest =>
                rw [hw] at h
                dsimp only at h
                by_cases hg2 : st.offset + 1 + B ≤ S.length
                · rw [if_pos hg2] at h
                  cases hre : read_exact S (st.offset + 1 + B - 1) 1 with
                  | none =>
                      rw [hre] at h
                      exact ScanResult.noConfusion h
                  | some nb =>
                      rw [hre] at h
                      dsimp only at h
                      match nb, h with
                      | [], h => exact ScanResult.noConfusion h
                      | [nbyte], h =>
                          have := ih _ _ h
                          dsimp only at this
                          omega
                      | a :: b :: t, h => exact ScanResult.noConfusion h
                · rw [if_neg hg2] at h
                  have := ScanResult.done.inj h
                  rw [← this]
                  dsimp only
                  omega
        | some block =>
            rw [hfm] at h
            dsimp only at h
            cases ham : apply_match S R B st block with
            | none =>
                rw [ham] at h
                exact ScanResult.noConfusion h
            | some st1 =>
                rw [ham] at h
                dsimp only at h
                have hoff1 : st1.offset = st.offset + B := (apply_match_spec ham).2.1
                by_cases hg2 : st1.offset + B ≤ S.length
                · rw [if_pos hg2] at h
                  cases hre : read_exact S st1.offset B with
                  | none =>
                      rw [hre] at h
                      exact ScanResult.noConfusion h
                  | some w =>
                      rw [hre] at h
                      dsimp only at h
                      have := ih _ _ h
                      dsimp only at this
                      omega
                · rw [if_neg hg2] at h
                  have := ScanResult.done.inj h
                  rw [← this]
                  omega
      · rw [if_neg hg] at h
        have := ScanResult.done.inj h
        rw [← this]

/-- The network scan loop cannot run out of fuel once the fuel exceeds
the number of bytes left. -/
lemma network_scan_loop_no_spin (strongF : List Nat → List Nat) (S : List Nat)
    (blocks : List Block) (B : Nat) (hB : 1 ≤ B) :
    ∀ (fuel : Nat) (st : NetState), S.length - st.pos < fuel →
    (network_scan_loop strongF S blocks B fuel st).isSpin = false := by
  intro fuel
  induction fuel with
  | zero =>
      intro st h
      omega
  | succ n ih =>
      intro st h
      rw [network_scan_loop]
      by_cases hg : st.pos + B ≤ S.length
      · rw [if_pos hg]
        cases hfm : find_match blocks st.current_weak (strongF st.window) with
        | none =>
            dsimp only
            cases hw : st.window with
            | nil => rfl
            | cons w0 rest =>
                dsimp only
                by_cases hg2 : st.pos + 1 + B - 1 < S.length
                · rw [if_pos hg2]
                  cases hre : read_exact S (st.pos + 1 + B - 1) 1 with
                  | none => rfl
                  | some nb =>
                      dsimp only
                      match nb with
                      | [] => rfl
                      | [nbyte] =>
                          dsimp only
                          apply ih
                          dsimp only
                          omega
                      | a :: b :: t => rfl
                · rw [if_neg hg2]
                  rfl
        | some block =>
            dsimp only
            by_cases hg2 : st.pos + B + B ≤ S.length
            · rw [if_pos hg2]
              cases hre : read_exact S (st.pos + B) B with
              | none => rfl
              | some w =>
                  dsimp only
                  apply ih
                  dsimp only
                  omega
            · rw [if_neg hg2]
              rfl
      · rw [if_neg hg]
        rfl

/-- The network scan loop exits immediately once pos + B exceeds the
source length. -/
lemma network_scan_loop_exit (strongF : List Nat → List Nat) (S : List Nat)
    (blocks : List Block) (B : Nat) (fuel : Nat) (st : NetState)
    (h : S.length < st.pos + B) :
    network_scan_loop strongF S blocks B (fuel + 1) st = .done st := by
  rw [network_scan_loop, if_neg (by omega)]

/-- The scan position never decreases across the network loop. -/
lemma network_scan_loop_pos_mono (strongF : List Nat → List Nat) (S : List Nat)
    (blocks : List Block) (B : Nat) :
    ∀ (fuel : Nat) (st st' : NetState),
    network_scan_loop strongF S blocks B fuel st = .done st' →
    st.pos ≤ st'.pos := by
  intro fuel
  induction fuel with
  | zero =>
      intro st st' h
      exact NetResult.noConfusion h
  | succ n ih =>
      intro st st' h
      rw [network_scan_loop] at h
      by_cases hg : st.pos + B ≤ S.length
      · rw [if_pos hg] at h
        cases hfm : find_match blocks st.current_weak (strongF st.window) with
        | none =>
            rw [hfm] at h
            dsimp only at h
            cases hw : st.window with
            | nil =>
                rw [hw] at h
                exact NetResult.noConfusion h
            | cons w0 rest =>
                rw [hw] at h
                dsimp only at h
                by_cases hg2 : st.pos + 1 + B - 1 < S.length
                · rw [if_pos hg2] at h
                  cases hre : read_exact S (st.pos + 1 + B - 1) 1 with
                  | none =>
                      rw [hre] at h
                      exact NetResult.noConfusion h
                  | some nb =>
                      rw [hre] at h
                      dsimp only at h
                      match nb, h with
                      | [], h => exact NetResult.noConfusion h
                      | [nbyte], h =>
                          have := ih _ _ h
                          dsimp only at this
                          omega
                      | a :: b :: t, h => exact NetResult.noConfusion h
                · rw [if_neg hg2] at h
                  have := NetResult.done.inj h
                  rw [← this]
                  dsimp only
                  omega
        | some block =>
            rw [hfm] at h
            dsimp only at h
            by_cases hg2 : st.pos + B + B ≤ S.length
            · rw [if_pos hg2] at h
              cases hre : read_exact S (st.pos + B) B with
              | none =>
                  rw [hre] at h
                  exact NetResult.noConfusion h
              | some w =>
                  rw [hre] at h
                  dsimp only at h
                  have := ih _ _ h
                  dsimp only at this
                  omega
            · rw [if_neg hg2] at h
              have := NetResult.done.inj h
              rw [← this]
              dsimp only
              omega
      · rw [if_neg hg] at h
        have := NetResult.done.inj h
        rw [← this]

/-- Every signature block of a file stays within the file, its
checksums are those of exactly the bytes of its range, and its size is
min(B, remaining). -/
lemma block_mem_facts (strongF : List Nat → List Nat) (B : Nat) (hB : 1 ≤ B)
    (R : List Nat) (b : Block) (hb : b ∈ calculate_checksums strongF B 0 R) :
    b.offset + b.size ≤ R.length ∧
    b.size = min B (R.length - b.offset) ∧
    ((R.drop b.offset).take b.size).length = b.size ∧
    b.strong_checksum = strongF ((R.drop b.offset).take b.size) ∧
    b.weak_checksum = calculate_weak_checksum ((R.drop b.offset).take b.size) := by
  rw [calculate_checksums, checksumsGo_closed strongF B hB R.length R le_rfl 0] at hb
  obtain ⟨i, hi, hbi⟩ := List.mem_map.1 hb
  have hi' : i < signature_count B R.length := List.mem_range.1 hi
  have h1 : (i + 1) * B ≤ R.length + B - 1 := by
    have := (Nat.le_div_iff_mul_le (show 0 < B by omega)).1
      (Nat.succ_le_of_lt hi')
    simpa [signature_count] using this
  have h2 : B * i + B = (i + 1) * B := by ring
  have hBi : B * i < R.length := by omega
  subst hbi
  have htk : (R.drop (B * i)).take B = (R.drop (B * i)).take (min B (R.length - B * i)) := by
    rw [List.take_eq_take, List.length_drop]
    omega
  refine ⟨?_, ?_, ?_, ?_, ?_⟩
  · dsimp only
    omega
  · dsimp only
    omega
  · dsimp only
    rw [List.length_take, List.length_drop]
    omega
  · dsimp only
    rw [htk, Nat.zero_add]
  · dsimp only
    rw [htk, Nat.zero_add]

/-- One byte read at a valid position is the singleton of that byte. -/
lemma take_one_eq (S : List Nat) (p : Nat) (hp : p < S.length) :
    (S.drop p).take 1 = [S.get ⟨p, hp⟩] := by
  rw [List.drop_eq_getElem_cons hp]
  rfl

/-- Structural invariants preserved by the local scan loop, with no
hypotheses on the checksum functions: whenever the loop exits normally
the counters satisfy reused_bytes at most last_match at most the
source length. -/
lemma sync_file_loop_done_inv (strongF : List Nat → List Nat) (S R : List Nat)
    (blocks : List Block) (B : Nat) :
    ∀ (fuel : Nat) (st st' : ScanState),
    sync_file_loop strongF S R blocks B fuel st = .done st' →
    st.last_match ≤ st.offset → st.reused_bytes ≤ st.last_match →
    st.last_match ≤ S.length →
    st'.last_match ≤ st'.offset ∧ st'.reused_bytes ≤ st'.last_match ∧
      st'.last_match ≤ S.length := by
  intro fuel
  induction fuel with
  | zero =>
      intro st st' h
      exact ScanResult.noConfusion h
  | succ n ih =>
      intro st st' h h1 h2 h3
      rw [sync_file_loop] at h
      by_cases hg : st.offset + B ≤ S.length
      · rw [if_pos hg] at h
        cases hfm : find_match blocks st.weak (strongF st.window) with
        | none =>
            rw [hfm] at h
            dsimp only at h
            cases hw : st.window with
            | nil =>
                rw [hw] at h
                exact ScanResult.noConfusion h
            | cons w0 rest =>
                rw [hw] at h
                dsimp only at h
                by_cases hg2 : st.offset + 1 + B ≤ S.length
                · rw [if_pos hg2] at h
                  cases hre : read_exact S (st.offset + 1 + B - 1) 1 with
                  | none =>
                      rw [hre] at h
                      exact ScanResult.noConfusion h
                  | some nb =>
                      rw [hre] at h
                      dsimp only at h
                      match nb, h with
                      | [], h => exact ScanResult.noConfusion h
                      | [nbyte], h =>
                          refine ih _ _ h ?_ ?_ ?_ <;> dsimp only <;> omega
                      | a :: b :: t, h => exact ScanResult.noConfusion h
                · rw [if_neg hg2] at h
                  have he := ScanResult.done.inj h
                  rw [← he]
                  dsimp only
                  omega
        | some block =>
            rw [hfm] at h
            dsimp only at h
            cases ham : apply_match S R B st block with
            | none =>
                rw [ham] at h
                exact ScanResult.noConfusion h
            | some st1 =>
                rw [ham] at h
                dsimp only at h
                obtain ⟨hbsz, hoff1, hlm1, hru1, hml1, hbd1⟩ := apply_match_spec ham
                by_cases hg2 : st1.offset + B ≤ S.length
                · rw [if_pos hg2] at h
                  cases hre : read_exact S st1.offset B with
                  | none =>
                      rw [hre] at h
                      exact ScanResult.noConfusion h
                  | some w =>
                      rw [hre] at h
                      dsimp only at h
                      refine ih _ _ h ?_ ?_ ?_ <;> dsimp only <;> omega
                · rw [if_neg hg2] at h
                  have he := ScanResult.done.inj h
                  rw [← he]
                  omega
      · rw [if_neg hg] at h
        have he := ScanResult.done.inj h
        rw [← he]
        exact ⟨h1, h2, h3⟩

/-- Main invariant lemma for the local scan loop.  Under the
hypothesis that the strong digest distinguishes byte strings of
different lengths, the loop always completes without aborting, keeps
reused_bytes a multiple of B and bounded by last_match, and (when the
digest is moreover injective) keeps the temporary file identical to
the source on [0, last_match). -/
lemma sync_file_loop_main (strongF : List Nat → List Nat) (S R : List Nat) (B : Nat)
    (hB : 1 ≤ B)
    (hlen : ∀ x y : List Nat, strongF x = strongF y → x.length = y.length) :
    ∀ (fuel : Nat) (st : ScanState), S.length - st.offset < fuel →
    (st.offset + B ≤ S.length → st.window = (S.drop st.offset).take B) →
    st.mmap.length = S.length →
    st.last_match ≤ st.offset →
    st.reused_bytes ≤ st.last_match →
    st.last_match ≤ S.length →
    B ∣ st.reused_bytes →
    (Function.Injective strongF → st.mmap.take st.last_match = S.take st.last_match) →
    ∃ st', sync_file_loop strongF S R (calculate_checksums strongF B 0 R) B fuel st
        = .done st' ∧
      st'.mmap.length = S.length ∧
      st'.last_match ≤ S.length ∧
      st'.reused_bytes ≤ st'.last_match ∧
      st'.last_match ≤ st'.offset ∧
      B ∣ st'.reused_bytes ∧
      (Function.Injective strongF →
        st'.mmap.take st'.last_match = S.take st'.last_match) := by
  intro fuel
  induction fuel with
  | zero =>
      intro st h
      omega
  | succ n ih =>
      intro st hfuel hwin hml hlm hru hlmS hdvd hpre
      rw [sync_file_loop]
      by_cases hg : st.offset + B ≤ S.length
      · rw [if_pos hg]
        cases hfm : find_match (calculate_checksums strongF B 0 R) st.weak
            (strongF st.window) with
        | none =>
            dsimp only
            have hwineq := hwin hg
            cases hw : st.window with
            | nil =>
                exfalso
                rw [hw] at hwineq
                have hlw : ((S.drop st.offset).take B).length = 0 := by
                  rw [← hwineq]
                  rfl
                rw [List.length_take, List.length_drop] at hlw
                omega
            | cons w0 rest =>
                dsimp only
                by_cases hg2 : st.offset + 1 + B ≤ S.length
                · rw [if_pos hg2,
                    read_exact_ok (show st.offset + 1 + B - 1 + 1 ≤ S.length from by omega),
                    show st.offset + 1 + B - 1 = st.offset + B from by omega,
                    take_one_eq S (st.offset + B) (by omega)]
                  dsimp only
                  rw [hw] at hwineq
                  have hshift := slice_shift S st.offset B hB (by omega) w0 rest hwineq.symm
                  rw [take_one_eq S (st.offset + B) (by omega)] at hshift
                  obtain ⟨st', hloop, hq1, hq2, hq3, hq4, hq5, hq6⟩ :=
                    ih { st with
                         offset := st.offset + 1,
                         window := rest ++ [S.get ⟨st.offset + B, by omega⟩],
                         weak := update_weak_checksum w0 (S.get ⟨st.offset + B, by omega⟩)
                           st.weak B }
                      (by dsimp only; omega)
                      (by intro hgx; dsimp only; exact hshift)
                      (by dsimp only; exact hml)
                      (by dsimp only; omega)
                      (by dsimp only; exact hru)
                      (by dsimp only; exact hlmS)
                      (by dsimp only; exact hdvd)
                      (by intro hinj; dsimp only; exact hpre hinj)
                  exact ⟨st', hloop, hq1, hq2, hq3, hq4, hq5, hq6⟩
                · rw [if_neg hg2]
                  refine ⟨_, rfl, hml, hlmS, hru, by dsimp only; omega, hdvd, ?_⟩
                  intro hinj
                  dsimp only
                  exact hpre hinj
        | some block =>
            dsimp only
            obtain ⟨hbmem, hbweak, hbstrong⟩ := find_match_eq_some hfm
            obtain ⟨hbo, hbsize, hbbl, hbs_eq, hbw_eq⟩ :=
              block_mem_facts strongF B hB R block hbmem
            have hwlen : st.window.length = B := by
              rw [hwin hg, List.length_take, List.length_drop]
              omega
            have hse : strongF ((R.drop block.offset).take block.size)
                = strongF st.window := hbs_eq.symm.trans hbstrong
            have hlenB : block.size = B := by
              have hl := hlen _ _ hse
              rw [hbbl, hwlen] at hl
              exact hl
            have hbytes : Function.Injective strongF →
                (R.drop block.offset).take block.size = (S.drop st.offset).take B := by
              intro hinj
              have hbw := hinj hse
              rw [hbw, hwin hg]
            obtain ⟨st1, heq, ho1, ho2, ho3, ho4, ho5, ho6, ho7⟩ :=
              apply_match_some S R B st block hlm hml hg hbo hlenB
            rw [heq]
            dsimp only
            by_cases hg2 : st1.offset + B ≤ S.length
            · rw [if_pos hg2, read_exact_ok (show st1.offset + B ≤ S.length from hg2)]
              dsimp only
              obtain ⟨st', hloop, hq1, hq2, hq3, hq4, hq5, hq6⟩ :=
                ih { st1 with
                     window := (S.drop st1.offset).take B,
                     weak := calculate_weak_checksum ((S.drop st1.offset).take B) }
                  (by dsimp only; omega)
                  (by intro hgx; dsimp only)
                  (by dsimp only; exact ho6)
                  (by dsimp only; omega)
                  (by dsimp only; omega)
                  (by dsimp only; omega)
                  (by dsimp only; rw [ho5, hlenB]; exact dvd_add hdvd dvd_rfl)
                  (by
                    intro hinj
                    dsimp only
                    rw [ho2]
                    exact ho7 (hpre hinj) (hbytes hinj))
              exact ⟨st', hloop, hq1, hq2, hq3, hq4, hq5, hq6⟩
            · rw [if_neg hg2]
              refine ⟨st1, rfl, ho6, by omega, by omega, by omega,
                by rw [ho5, hlenB]; exact dvd_add hdvd dvd_rfl, ?_⟩
              intro hinj
              rw [ho2]
              exact ho7 (hpre hinj) (hbytes hinj)
      · rw [if_neg hg]
        exact ⟨st, rfl, hml, hlmS, hru, hlm, hdvd, hpre⟩

/-- Full-run correctness of the local file sync on the content level:
with an injective strong digest and a positive block size, the sync of
S onto an existing R succeeds and leaves the destination holding
exactly the bytes of S. -/
lemma sync_file_correct (strongF : List Nat → List Nat) (S R : List Nat) (B : Nat)
    (hB : 1 ≤ B) (hinj : Function.Injective strongF) :
    ∃ res : TransferResult, sync_file strongF S R B true = some (S, res) ∧
      res.new_bytes + res.reused_bytes = S.length := by
  have hlen : ∀ x y : List Nat, strongF x = strongF y → x.length = y.length := by
    intro x y hxy
    rw [hinj hxy]
  rw [sync_file, if_neg (by simp)]
  by_cases hsmall : S.length < B
  · rw [if_pos hsmall]
    exact ⟨{ new_bytes := S.length, reused_bytes := 0 }, rfl, by simp⟩
  · rw [if_neg hsmall]
    have hminB : min B S.length = B := by omega
    rw [read_exact_ok (by omega)]
    dsimp only
    obtain ⟨st', hloop, hq1, hq2, hq3, hq4, hq5, hq6⟩ :=
      sync_file_loop_main strongF S R B hB hlen (S.length + 1)
        { offset := 0, last_match := 0,
          window := (S.drop 0).take (min B S.length),
          weak := calculate_weak_checksum ((S.drop 0).take (min B S.length)),
          mmap := List.replicate S.length 0, reused_bytes := 0, writes := [] }
        (by try dsimp only
            omega)
        (by intro hgx
            try dsimp only
            rw [hminB])
        (by try dsimp only
            exact List.length_replicate S.length 0)
        (by try dsimp only
            omega)
        (by try dsimp only
            omega)
        (by try dsimp only
            omega)
        (by try dsimp only
            exact Dvd.intro 0 rfl)
        (by intro _
            try dsimp only
            rfl)
    rw [hloop]
    dsimp only
    have hprefix := hq6 hinj
    by_cases htail : st'.last_match < S.length
    · rw [if_pos htail]
      rw [copy_from_slice_ok (by omega) le_rfl
        (by rw [read_to_end, List.length_drop, hq1])]
      have hmS : st'.mmap.take st'.last_match ++ read_to_end S st'.last_match
          ++ st'.mmap.drop st'.mmap.length = S := by
        rw [List.drop_length, List.append_nil, hprefix, read_to_end,
          List.take_append_drop]
      refine ⟨{ new_bytes := S.length - st'.reused_bytes,
                reused_bytes := st'.reused_bytes }, ?_, ?_⟩
      · rw [hmS]
      · show S.length - st'.reused_bytes + st'.reused_bytes = S.length
        omega
    · rw [if_neg htail]
      have hlm : st'.last_match = S.length := by omega
      have hm : st'.mmap = S := by
        have h1 : st'.mmap.take st'.last_match = st'.mmap := by
          rw [hlm, ← hq1]
          exact List.take_length st'.mmap
        have h2 : S.take st'.last_match = S := by
          rw [hlm]
          exact List.take_length S
        rw [← h1, hprefix, h2]
      rw [hm]
      refine ⟨{ new_bytes := S.length - st'.reused_bytes,
                reused_bytes := st'.reused_bytes }, rfl, ?_⟩
      show S.length - st'.reused_bytes + st'.reused_bytes = S.length
      omega

/-- The counters of a successful local file sync always sum to the
source length (no hypotheses on the checksum functions). -/
lemma sync_file_counters (strongF : List Nat → List Nat) (S R : List Nat) (B : Nat)
    (dst_exists : Bool) :
    ∀ out, sync_file strongF S R B dst_exists = some out →
      out.2.new_bytes + out.2.reused_bytes = S.length := by
  intro out h
  rw [sync_file] at h
  by_cases hde : dst_exists = false
  · rw [if_pos hde] at h
    have := Option.some.inj h
    rw [← this]
    dsimp only [copy_file]
    omega
  · rw [if_neg hde] at h
    by_cases hsmall : S.length < B
    · rw [if_pos hsmall] at h
      have := Option.some.inj h
      rw [← this]
      dsimp only [copy_file]
      omega
    · rw [if_neg hsmall] at h
      cases hre : read_exact S 0 (min B S.length) with
      | none =>
          rw [hre] at h
          exact absurd h (by simp)
      | some window =>
          rw [hre] at h
          dsimp only at h
          cases hloop : sync_file_loop strongF S R (calculate_checksums strongF B 0 R) B
              (S.length + 1)
              { offset := 0, last_match := 0, window := window,
                weak := calculate_weak_checksum window,
                mmap := List.replicate S.length 0, reused_bytes := 0, writes := [] } with
          | done st' =>
              rw [hloop] at h
              dsimp only at h
              obtain ⟨hv1, hv2, hv3⟩ := sync_file_loop_done_inv strongF S R
                (calculate_checksums strongF B 0 R) B (S.length + 1) _ st' hloop
                (by dsimp only; omega) (by dsimp only; omega) (by dsimp only; omega)
              by_cases htail : st'.last_match < S.length
              · rw [if_pos htail] at h
                cases hcp : copy_from_slice st'.mmap st'.last_match st'.mmap.length
                    (read_to_end S st'.last_match) with
                | none =>
                    rw [hcp] at h
                    exact absurd h (by simp)
                | some m =>
                    rw [hcp] at h
                    dsimp only at h
                    have := Option.some.inj h
                    rw [← this]
                    dsimp only
                    omega
              · rw [if_neg htail] at h
                have := Option.some.inj h
                rw [← this]
                dsimp only
                omega
          | fail st' =>
              rw [hloop] at h
              exact absurd h (by simp)
          | spin st' =>
              rw [hloop] at h
              exact absurd h (by simp)

/-- On a destination identical to the source, every block-aligned
window matches, so the loop advances B bytes per iteration and reuses
exactly B * floor((remaining) / B) bytes. -/
lemma sync_file_loop_identical (strongF : List Nat → List Nat) (S : List Nat) (B : Nat)
    (hB : 1 ≤ B) (hinj : Function.Injective strongF) :
    ∀ (fuel : Nat) (st : ScanState), S.length - st.offset < fuel →
    (st.offset + B ≤ S.length → st.window = (S.drop st.offset).take B) →
    (st.offset + B ≤ S.length → st.weak = calculate_weak_checksum st.window) →
    st.offset % B = 0 →
    st.last_match = st.offset →
    st.mmap.length = S.length →
    ∃ st', sync_file_loop strongF S S (calculate_checksums strongF B 0 S) B fuel st
        = .done st' ∧
      st'.reused_bytes = st.reused_bytes + B * ((S.length - st.offset) / B) ∧
      st'.last_match = st.offset + B * ((S.length - st.offset) / B) := by
  have hlen : ∀ x y : List Nat, strongF x = strongF y → x.length = y.length := by
    intro x y hxy
    rw [hinj hxy]
  intro fuel
  induction fuel with
  | zero =>
      intro st h
      omega
  | succ n ih =>
      intro st hfuel hwin hweak hmod hlm0 hml
      rw [sync_file_loop]
      by_cases hg : st.offset + B ≤ S.length
      · rw [if_pos hg]
        -- the aligned reference block matches the current window
        have hBi : B * (st.offset / B) = st.offset :=
          Nat.mul_div_cancel' (Nat.dvd_of_mod_eq_zero hmod)
        have hi : st.offset / B < signature_count B S.length := by
          have h1 : (st.offset / B + 1) * B ≤ S.length + B - 1 := by
            have h2 : (st.offset / B + 1) * B = B * (st.offset / B) + B := by ring
            omega
          have h3 := (Nat.le_div_iff_mul_le (show 0 < B by omega)).2 h1
          rw [signature_count]
          omega
        have hmem : ({ offset := 0 + B * (st.offset / B),
                       size := min B (S.length - B * (st.offset / B)),
                       weak_checksum :=
                         calculate_weak_checksum ((S.drop (B * (st.offset / B))).take B),
                       strong_checksum :=
                         strongF ((S.drop (B * (st.offset / B))).take B) : Block })
            ∈ calculate_checksums strongF B 0 S := by
          rw [calculate_checksums, checksumsGo_closed strongF B hB S.length S le_rfl 0]
          exact List.mem_map.2 ⟨st.offset / B, List.mem_range.2 hi, rfl⟩
        have hsome := find_match_isSome _ hmem
          (show _ = st.weak from by
            dsimp only
            rw [hBi, hweak hg, hwin hg])
          (show _ = strongF st.window from by
            dsimp only
            rw [hBi, hwin hg])
        cases hfm : find_match (calculate_checksums strongF B 0 S) st.weak
            (strongF st.window) with
        | none =>
            rw [hfm] at hsome
            exact absurd hsome (by simp)
        | some bk =>
            dsimp only
            obtain ⟨hbmem, hbkweak, hbkstrong⟩ := find_match_eq_some hfm
            obtain ⟨hbo, hbsize, hbbl, hbs_eq, hbw_eq⟩ :=
              block_mem_facts strongF B hB S bk hbmem
            have hwlen : st.window.length = B := by
              rw [hwin hg, List.length_take, List.length_drop]
              omega
            have hse : strongF ((S.drop bk.offset).take bk.size)
                = strongF st.window := hbs_eq.symm.trans hbkstrong
            have hlenB : bk.size = B := by
              have hl := hlen _ _ hse
              rw [hbbl, hwlen] at hl
              exact hl
            obtain ⟨st1, heq, ho1, ho2, ho3, ho4, ho5, ho6, ho7⟩ :=
              apply_match_some S S B st bk (by omega) hml hg hbo hlenB
            rw [heq]
            dsimp only
            have harith : B + B * ((S.length - (st.offset + B)) / B)
                = B * ((S.length - st.offset) / B) := by
              have h1 : (S.length - st.offset) / B
                  = ((S.length - st.offset) - B) / B + 1 :=
                Nat.div_eq_sub_div (by omega) (by omega)
              have h2 : S.length - (st.offset + B) = (S.length - st.offset) - B := by
                omega
              rw [h2, h1]
              ring
            by_cases hg2 : st1.offset + B ≤ S.length
            · rw [if_pos hg2, read_exact_ok (show st1.offset + B ≤ S.length from hg2)]
              dsimp only
              obtain ⟨st', hloop, hr1, hr2⟩ :=
                ih { st1 with
                     window := (S.drop st1.offset).take B,
                     weak := calculate_weak_checksum ((S.drop st1.offset).take B) }
                  (by try dsimp only
                      omega)
                  (by intro _
                      rfl)
                  (by intro _
                      rfl)
                  (by show st1.offset % B = 0
                      rw [ho1, Nat.add_mod_right]
                      exact hmod)
                  (by show st1.last_match = st1.offset
                      rw [ho1, ho2])
                  (by show st1.mmap.length = S.length
                      exact ho6)
              refine ⟨st', hloop, ?_, ?_⟩
              · rw [hr1]
                show st1.reused_bytes + B * ((S.length - st1.offset) / B) = _
                rw [ho5, hlenB, ho1]
                omega
              · rw [hr2]
                show st1.offset + B * ((S.length - st1.offset) / B) = _
                rw [ho1]
                omega
            · rw [if_neg hg2]
              have hg2' : S.length < st.offset + B + B := by
                rw [ho1] at hg2
                omega
              have h1 : (S.length - st.offset) / B
                  = ((S.length - st.offset) - B) / B + 1 :=
                Nat.div_eq_sub_div (by omega) (by omega)
              have h2 : ((S.length - st.offset) - B) / B = 0 :=
                Nat.div_eq_of_lt (by omega)
              refine ⟨st1, rfl, ?_, ?_⟩
              · rw [ho5, hlenB, h1, h2]
                omega
              · rw [ho2, h1, h2]
                omega
      · rw [if_neg hg]
        have hz : (S.length - st.offset) / B = 0 := Nat.div_eq_of_lt (by omega)
        refine ⟨st, rfl, ?_, ?_⟩
        · rw [hz]
          omega
        · rw [hz]
          omega

/-- Any block confirmed by the weak-then-strong lookup against a
window of full width has size exactly B, provided the strong digest
distinguishes byte strings of different lengths. -/
lemma find_match_full_width (strongF : List Nat → List Nat) (B : Nat) (R : List Nat)
    (hB : 1 ≤ B)
    (hlen : ∀ x y : List Nat, strongF x = strongF y → x.length = y.length)
    (w : List Nat) (hw : w.length = B) (wk : Nat) (b : Block)
    (h : find_match (calculate_checksums strongF B 0 R) wk (strongF w) = some b) :
    b.size = B := by
  obtain ⟨hbmem, _, hbstrong⟩ := find_match_eq_some h
  obtain ⟨hbo, hbsize, hbbl, hbs_eq, _⟩ := block_mem_facts strongF B hB R b hbmem
  have hse : strongF ((R.drop b.offset).take b.size) = strongF w :=
    hbs_eq.symm.trans hbstrong
  have hl := hlen _ _ hse
  rw [hbbl, hw] at hl
  exact hl

/-- The local sync of a source onto an existing destination never
aborts when the strong digest distinguishes byte strings of different
lengths: in particular the B-wide mmap slice copy never receives a
buffer of a different length. -/
lemma sync_file_isSome (strongF : List Nat → List Nat) (S R : List Nat) (B : Nat)
    (hB : 1 ≤ B)
    (hlen : ∀ x y : List Nat, strongF x = strongF y → x.length = y.length) :
    sync_file strongF S R B true ≠ none := by
  rw [sync_file, if_neg (by simp)]
  by_cases hsmall : S.length < B
  · rw [if_pos hsmall]
    simp
  · rw [if_neg hsmall]
    rw [read_exact_ok (by omega)]
    dsimp only
    obtain ⟨st', hloop, hq1, hq2, hq3, hq4, hq5, hq6⟩ :=
      sync_file_loop_main strongF S R B hB hlen (S.length + 1)
        { offset := 0, last_match := 0,
          window := (S.drop 0).take (min B S.length),
          weak := calculate_weak_checksum ((S.drop 0).take (min B S.length)),
          mmap := List.replicate S.length 0, reused_bytes := 0, writes := [] }
        (by try dsimp only
            omega)
        (by intro hgx
            try dsimp only
            rw [show min B S.length = B from by omega])
        (by try dsimp only
            exact List.length_replicate S.length 0)
        (by try dsimp only
            omega)
        (by try dsimp only
            omega)
        (by try dsimp only
            omega)
        (by try dsimp only
            exact Dvd.intro 0 rfl)
        (by intro _
            try dsimp only
            rfl)
    rw [hloop]
    dsimp only
    by_cases htail : st'.last_match < S.length
    · rw [if_pos htail]
      rw [copy_from_slice_ok (by omega) le_rfl
        (by rw [read_to_end, List.length_drop, hq1])]
      simp
    · rw [if_neg htail]
      simp

/-- Evaluation of the local sync when source and destination are
byte-identical: the counters are exactly the tail remainder and the
block-aligned prefix. -/
lemma sync_file_identical (strongF : List Nat → List Nat) (S : List Nat) (B : Nat)
    (hB : 1 ≤ B) (hinj : Function.Injective strongF) :
    sync_file strongF S S B true
      = some (S, { new_bytes := S.length % B,
                   reused_bytes := S.length - S.length % B }) := by
  have hlen : ∀ x y : List Nat, strongF x = strongF y → x.length = y.length := by
    intro x y hxy
    rw [hinj hxy]
  rw [sync_file, if_neg (by simp)]
  by_cases hsmall : S.length < B
  · rw [if_pos hsmall]
    have h1 : S.length % B = S.length := Nat.mod_eq_of_lt hsmall
    simp [copy_file, h1]
  · rw [if_neg hsmall]
    rw [read_exact_ok (by omega)]
    dsimp only
    obtain ⟨st', hloop, hq1, hq2, hq3, hq4, hq5, hq6⟩ :=
      sync_file_loop_main strongF S S B hB hlen (S.length + 1)
        { offset := 0, last_match := 0,
          window := (S.drop 0).take (min B S.length),
          weak := calculate_weak_checksum ((S.drop 0).take (min B S.length)),
          mmap := List.replicate S.length 0, reused_bytes := 0, writes := [] }
        (by try dsimp only
            omega)
        (by intro hgx
            try dsimp only
            rw [show min B S.length = B from by omega])
        (by try dsimp only
            exact List.length_replicate S.length 0)
        (by try dsimp only
            omega)
        (by try dsimp only
            omega)
        (by try dsimp only
            omega)
        (by try dsimp only
            exact Dvd.intro 0 rfl)
        (by intro _
            try dsimp only
            rfl)
    obtain ⟨st2, hloop2, hr1, hr2⟩ :=
      sync_file_loop_identical strongF S B hB hinj (S.length + 1)
        { offset := 0, last_match := 0,
          window := (S.drop 0).take (min B S.length),
          weak := calculate_weak_checksum ((S.drop 0).take (min B S.length)),
          mmap := List.replicate S.length 0, reused_bytes := 0, writes := [] }
        (by try dsimp only
            omega)
        (by intro hgx
            try dsimp only
            rw [show min B S.length = B from by omega])
        (by intro hgx
            rfl)
        (by try dsimp only
            exact Nat.zero_mod B)
        rfl
        (by try dsimp only
            exact List.length_replicate S.length 0)
    have hst : st' = st2 := ScanResult.done.inj (hloop.symm.trans hloop2)
    rw [← hst] at hr1 hr2
    have hruv : st'.reused_bytes = B * (S.length / B) := by
      rw [hr1]
      try dsimp only
      simp
    have hlmv : st'.last_match = B * (S.length / B) := by
      rw [hr2]
      try dsimp only
      simp
    have hdm := Nat.div_add_mod S.length B
    have hprefix := hq6 hinj
    have hrec : ({ new_bytes := S.length - st'.reused_bytes,
                   reused_bytes := st'.reused_bytes } : TransferResult)
        = { new_bytes := S.length % B, reused_bytes := S.length - S.length % B } := by
      rw [hruv]
      congr 1 <;> omega
    rw [hloop]
    dsimp only
    by_cases htail : st'.last_match < S.length
    · rw [if_pos htail]
      rw [copy_from_slice_ok (by omega) le_rfl
        (by rw [read_to_end, List.length_drop, hq1])]
      have hmS : st'.mmap.take st'.last_match ++ read_to_end S st'.last_match
          ++ st'.mmap.drop st'.mmap.length = S := by
        rw [List.drop_length, List.append_nil, hprefix, read_to_end,
          List.take_append_drop]
      rw [hmS, hrec]
    · rw [if_neg htail]
      have hlmS : st'.last_match = S.length := by omega
      have hm : st'.mmap = S := by
        have h1 : st'.mmap.take st'.last_match = st'.mmap := by
          rw [hlmS, ← hq1]
          exact List.take_length st'.mmap
        have h2 : S.take st'.last_match = S := by
          rw [hlmS]
          exact List.take_length S
        rw [← h1, hprefix, h2]
      rw [hm, hrec]

lemma find_match_nil (weak : Nat) (strong : List Nat) :
    find_match [] weak strong = none := rfl

/-- With an empty signature table (the NOBLK case) the network scan
loop never matches, so it only accumulates unmatched literal bytes and
never appends an instruction. -/
lemma network_scan_loop_empty_table (strongF : List Nat → List Nat) (S : List Nat)
    (B : Nat) :
    ∀ (fuel : Nat) (st st' : NetState),
    network_scan_loop strongF S [] B fuel st = .done st' →
    st'.instructions = st.instructions := by
  intro fuel
  induction fuel with
  | zero =>
      intro st st' h
      exact NetResult.noConfusion h
  | succ n ih =>
      intro st st' h
      rw [network_scan_loop] at h
      by_cases hg : st.pos + B ≤ S.length
      · rw [if_pos hg, find_match_nil] at h
        dsimp only at h
        cases hw : st.window with
        | nil =>
            rw [hw] at h
            exact NetResult.noConfusion h
        | cons w0 rest =>
            rw [hw] at h
            dsimp only at h
            by_cases hg2 : st.pos + 1 + B - 1 < S.length
            · rw [if_pos hg2] at h
              cases hre : read_exact S (st.pos + 1 + B - 1) 1 with
              | none =>
                  rw [hre] at h
                  exact NetResult.noConfusion h
              | some nb =>
                  rw [hre] at h
                  dsimp only at h
                  match nb, h with
                  | [], h => exact NetResult.noConfusion h
                  | [nbyte], h =>
                      have h2 : network_scan_loop strongF S [] B n
                          { pos := st.pos + 1, window := rest ++ [nbyte],
                            current_weak :=
                              update_weak_checksum w0 nbyte st.current_weak B,
                            unmatched := st.unmatched ++ [w0],
                            instructions := st.instructions } = .done st' := h
                      have h3 := ih _ _ h2
                      exact h3
                  | a :: b :: t, h => exact NetResult.noConfusion h
            · rw [if_neg hg2] at h
              have he := NetResult.done.inj h
              rw [← he]
      · rw [if_neg hg] at h
        have he := NetResult.done.inj h
        rw [← he]

/-- After NOBLK the client sends only DATA frames: with an empty
signature table every instruction of a successful network sync is a
DATA instruction. -/
lemma network_sync_empty_table (strongF : List Nat → List Nat) (S : List Nat) (B : Nat) :
    ∀ out, network_sync strongF S [] B = some out →
      ∀ i ∈ out.1, instruction_is_data i = true := by
  intro out h i hi
  rw [network_sync] at h
  by_cases hsmall : S.length < B
  · rw [if_pos hsmall] at h
    have := Option.some.inj h
    rw [← this] at hi
    simp only [List.mem_singleton] at hi
    rw [hi]
    rfl
  · rw [if_neg hsmall] at h
    cases hre : read_exact S 0 B with
    | none =>
        rw [hre] at h
        exact absurd h (by simp)
    | some window =>
        rw [hre] at h
        dsimp only at h
        cases hloop : network_scan_loop strongF S [] B (S.length + 1)
            { pos := 0, window := window,
              current_weak := calculate_weak_checksum window,
              unmatched := [], instructions := [] } with
        | done st' =>
            rw [hloop] at h
            dsimp only at h
            have hinst : st'.instructions = [] :=
              network_scan_loop_empty_table strongF S B _ _ _ hloop
            by_cases htail : st'.pos < S.length
            · rw [if_pos htail] at h
              have := Option.some.inj h
              rw [← this] at hi
              dsimp only at hi
              rw [hinst] at hi
              simp only [List.nil_append, List.mem_singleton] at hi
              by_cases hu : st'.unmatched = []
              · rw [if_pos hu] at hi
                simp only [List.mem_singleton] at hi
                rw [hi]
                rfl
              · rw [if_neg hu] at hi
                simp only [List.mem_singleton] at hi
                rw [hi]
                rfl
            · rw [if_neg htail] at h
              by_cases hu : st'.unmatched = []
              · rw [if_pos hu] at h
                have := Option.some.inj h
                rw [← this] at hi
                dsimp only at hi
                rw [hinst] at hi
                exact absurd hi (by simp)
              · rw [if_neg hu] at h
                have := Option.some.inj h
                rw [← this] at hi
                dsimp only at hi
                rw [hinst] at hi
                simp only [List.nil_append, List.mem_singleton] at hi
                rw [hi]
                rfl
        | fail st' =>
            rw [hloop] at h
            exact absurd h (by simp)
        | spin st' =>
            rw [hloop] at h
            exact absurd h (by simp)

/-- The TransferResult handed back by NetworkSyncer::sync is always
new_bytes = file size, reused_bytes = 0, whatever instructions were
sent (network_sync.rs line 185, the TODO). -/
lemma network_sync_result (strongF : List Nat → List Nat) (S : List Nat)
    (blocks : List Block) (B : Nat) :
    ∀ out, network_sync strongF S blocks B = some out →
      out.2 = { new_bytes := S.length, reused_bytes := 0 } := by
  intro out h
  rw [network_sync] at h
  by_cases hsmall : S.length < B
  · rw [if_pos hsmall] at h
    have := Option.some.inj h
    rw [← this]
  · rw [if_neg hsmall] at h
    cases hre : read_exact S 0 B with
    | none =>
        rw [hre] at h
        exact absurd h (by simp)
    | some window =>
        rw [hre] at h
        dsimp only at h
        cases hloop : network_scan_loop strongF S blocks B (S.length + 1)
            { pos := 0, window := window,
              current_weak := calculate_weak_checksum window,
              unmatched := [], instructions := [] } with
        | done st' =>
            rw [hloop] at h
            dsimp only at h
            by_cases htail : st'.pos < S.length
            · rw [if_pos htail] at h
              have := Option.some.inj h
              rw [← this]
            · rw [if_neg htail] at h
              by_cases hu : st'.unmatched = []
              · rw [if_pos hu] at h
                have := Option.some.inj h
                rw [← this]
              · rw [if_neg hu] at h
                have := Option.some.inj h
                rw [← this]
        | fail st' =>
            rw [hloop] at h
            exact absurd h (by simp)
        | spin st' =>
            rw [hloop] at h
            exact absurd h (by simp)

/-- On a signature table built from the source itself, every aligned
window matches: the network loop advances B bytes per iteration,
keeps unmatched empty, and appends only COPY instructions. -/
lemma network_scan_loop_identical (strongF : List Nat → List Nat) (S : List Nat) (B : Nat)
    (hB : 1 ≤ B) (hinj : Function.Injective strongF) :
    ∀ (fuel : Nat) (st : NetState), S.length - st.pos < fuel →
    (st.pos + B ≤ S.length → st.window = (S.drop st.pos).take B) →
    (st.pos + B ≤ S.length → st.current_weak = calculate_weak_checksum st.window) →
    st.pos % B = 0 →
    st.unmatched = [] →
    ∃ st', network_scan_loop strongF S (calculate_checksums strongF B 0 S) B fuel st
        = .done st' ∧
      st'.pos = st.pos + B * ((S.length - st.pos) / B) ∧
      st'.unmatched = [] ∧
      ∃ copies, st'.instructions = st.instructions ++ copies ∧
        ∀ i ∈ copies, instruction_is_copy i = true := by
  have hlen : ∀ x y : List Nat, strongF x = strongF y → x.length = y.length := by
    intro x y hxy
    rw [hinj hxy]
  intro fuel
  induction fuel with
  | zero =>
      intro st h
      omega
  | succ n ih =>
      intro st hfuel hwin hweak hmod hunm
      rw [network_scan_loop]
      by_cases hg : st.pos + B ≤ S.length
      · rw [if_pos hg]
        have hBi : B * (st.pos / B) = st.pos :=
          Nat.mul_div_cancel' (Nat.dvd_of_mod_eq_zero hmod)
        have hi : st.pos / B < signature_count B S.length := by
          have h1 : (st.pos / B + 1) * B ≤ S.length + B - 1 := by
            have h2 : (st.pos / B + 1) * B = B * (st.pos / B) + B := by ring
            omega
          have h3 := (Nat.le_div_iff_mul_le (show 0 < B by omega)).2 h1
          rw [signature_count]
          omega
        have hmem : ({ offset := 0 + B * (st.pos / B),
                       size := min B (S.length - B * (st.pos / B)),
                       weak_checksum :=
                         calculate_weak_checksum ((S.drop (B * (st.pos / B))).take B),
                       strong_checksum :=
                         strongF ((S.drop (B * (st.pos / B))).take B) : Block })
            ∈ calculate_checksums strongF B 0 S := by
          rw [calculate_checksums, checksumsGo_closed strongF B hB S.length S le_rfl 0]
          exact List.mem_map.2 ⟨st.pos / B, List.mem_range.2 hi, rfl⟩
        have hsome := find_match_isSome _ hmem
          (show _ = st.current_weak from by
            dsimp only
            rw [hBi, hweak hg, hwin hg])
          (show _ = strongF st.window from by
            dsimp only
            rw [hBi, hwin hg])
        cases hfm : find_match (calculate_checksums strongF B 0 S) st.current_weak
            (strongF st.window) with
        | none =>
            rw [hfm] at hsome
            exact absurd hsome (by simp)
        | some bk =>
            dsimp only
            rw [hunm]
            rw [if_pos rfl, List.append_nil]
            have harith : B + B * ((S.length - (st.pos + B)) / B)
                = B * ((S.length - st.pos) / B) := by
              have h1 : (S.length - st.pos) / B
                  = ((S.length - st.pos) - B) / B + 1 :=
                Nat.div_eq_sub_div (by omega) (by omega)
              have h2 : S.length - (st.pos + B) = (S.length - st.pos) - B := by
                omega
              rw [h2, h1]
              ring
            by_cases hg2 : st.pos + B + B ≤ S.length
            · rw [if_pos hg2, read_exact_ok (show st.pos + B + B ≤ S.length from hg2)]
              dsimp only
              obtain ⟨st', hloop, hr1, hr2, copies, hr3, hr4⟩ :=
                ih { pos := st.pos + B,
                     window := (S.drop (st.pos + B)).take B,
                     current_weak :=
                       calculate_weak_checksum ((S.drop (st.pos + B)).take B),
                     unmatched := [],
                     instructions :=
                       st.instructions ++ [.copy bk.offset bk.size] }
                  (by try dsimp only
                      omega)
                  (by intro _
                      rfl)
                  (by intro _
                      rfl)
                  (by show (st.pos + B) % B = 0
                      rw [Nat.add_mod_right]
                      exact hmod)
                  rfl
              refine ⟨st', hloop, ?_, hr2, Instruction.copy bk.offset bk.size :: copies,
                ?_, ?_⟩
              · rw [hr1]
                show st.pos + B + B * ((S.length - (st.pos + B)) / B) = _
                omega
              · rw [hr3]
                show st.instructions ++ [Instruction.copy bk.offset bk.size] ++ copies
                    = _
                rw [List.append_assoc]
                rfl
              · intro i hi2
                rcases List.mem_cons.1 hi2 with h | h
                · rw [h]
                  rfl
                · exact hr4 i h
            · rw [if_neg hg2]
              have h1 : (S.length - st.pos) / B
                  = ((S.length - st.pos) - B) / B + 1 :=
                Nat.div_eq_sub_div (by omega) (by omega)
              have h2 : ((S.length - st.pos) - B) / B = 0 :=
                Nat.div_eq_of_lt (by omega)
              refine ⟨_, rfl, ?_, rfl, [Instruction.copy bk.offset bk.size], rfl, ?_⟩
              · show st.pos + B = st.pos + B * ((S.length - st.pos) / B)
                rw [h1, h2]
                omega
              · intro i hi2
                rcases List.mem_singleton.1 hi2 with h
                rw [h]
                rfl
      · rw [if_neg hg]
        have hz : (S.length - st.pos) / B = 0 := Nat.div_eq_of_lt (by omega)
        refine ⟨st, rfl, ?_, hunm, [], (List.append_nil _).symm, by simp⟩
        rw [hz]
        omega

/-- On a byte-identical source and destination (with at least one full
block), the network client emits only COPY instructions, except for a
single trailing DATA of the last (length mod B) bytes when the length
is not a multiple of B.  The returned counters are still
new_bytes = file size, reused_bytes = 0. -/
lemma network_sync_identical (strongF : List Nat → List Nat) (S : List Nat) (B : Nat)
    (hB : 1 ≤ B) (hinj : Function.Injective strongF) (hBS : B ≤ S.length) :
    ∃ copies : List Instruction,
      network_sync strongF S (calculate_checksums strongF B 0 S) B
        = some (copies ++ (if S.length % B = 0 then []
            else [Instruction.data (S.drop (B * (S.length / B)))]),
          { new_bytes := S.length, reused_bytes := 0 }) ∧
      ∀ i ∈ copies, instruction_is_copy i = true := by
  rw [network_sync, if_neg (by omega)]
  rw [read_exact_ok (by omega)]
  dsimp only
  obtain ⟨st', hloop, hpos, hunm, copies, hinst, hcop⟩ :=
    network_scan_loop_identical strongF S B hB hinj (S.length + 1)
      { pos := 0, window := (S.drop 0).take B,
        current_weak := calculate_weak_checksum ((S.drop 0).take B),
        unmatched := [], instructions := [] }
      (by try dsimp only
          omega)
      (by intro _
          rfl)
      (by intro _
          rfl)
      (by try dsimp only
          exact Nat.zero_mod B)
      rfl
  rw [hloop]
  dsimp only
  have hposv : st'.pos = B * (S.length / B) := by
    rw [hpos]
    try dsimp only
    simp
  have hinstv : st'.instructions = copies := by
    rw [hinst]
    try dsimp only
    simp
  have hdm := Nat.div_add_mod S.length B
  by_cases hmod : S.length % B = 0
  · rw [if_pos hmod]
    have htail : ¬ st'.pos < S.length := by omega
    rw [if_neg htail, if_pos hunm, hinstv]
    exact ⟨copies, by rw [List.append_nil], hcop⟩
  · rw [if_neg hmod]
    have htail : st'.pos < S.length := by omega
    rw [if_pos htail, if_pos hunm, hinstv]
    refine ⟨copies, ?_, hcop⟩
    rw [read_to_end, hposv]

/-- Replaying operations that each mutate only a path different from
dst leaves the contents at dst unchanged. -/
lemma replay_preserves_of_targets (dst : RPath) :
    ∀ (ops : List FsOp) (fs : RPath → Option (List Nat)),
    (∀ op ∈ ops, ∃ p n d,
      (op = FsOp.createTrunc p ∨ op = FsOp.setLen p n ∨ op = FsOp.write p n d) ∧
      p ≠ dst) →
    replay fs ops dst = fs dst := by
  intro ops
  induction ops with
  | nil =>
      intro fs h
      rfl
  | cons op rest ih =>
      intro fs h
      have hop := h op (List.mem_cons_self op rest)
      obtain ⟨p, n, d, hshape, hne⟩ := hop
      have hstep : apply_op fs op dst = fs dst := by
        rcases hshape with h1 | h1 | h1 <;>
          (rw [h1, apply_op]
           dsimp only
           rw [if_neg (fun he : dst = p => hne he.symm)])
      calc replay fs (op :: rest) dst
          = replay (apply_op fs op) rest dst := rfl
        _ = apply_op fs op dst := ih _ (fun o ho => h o (List.mem_cons_of_mem op ho))
        _ = fs dst := hstep

/-- Every operation of the local delta-path trace is either the final
rename or a mutation of the temporary sibling path. -/
lemma local_sync_ops_targets (strongF : List Nat → List Nat) (S R : List Nat) (B : Nat)
    (dst : RPath) (hBS : B ≤ S.length) :
    ∀ op ∈ local_sync_ops strongF S R B dst true,
      op = FsOp.rename (with_extension dst "tmp") dst ∨
      (∃ p n d,
        (op = FsOp.createTrunc p ∨ op = FsOp.setLen p n ∨ op = FsOp.write p n d) ∧
        p = with_extension dst "tmp") := by
  intro op hop
  rw [local_sync_ops, if_neg (by simp), if_neg (by omega)] at hop
  cases hre : read_exact S 0 (min B S.length) with
  | none =>
      rw [hre] at hop
      exact absurd hop (by simp)
  | some window =>
      rw [hre] at hop
      dsimp only at hop
      cases hloop : sync_file_loop strongF S R (calculate_checksums strongF B 0 R) B
          (S.length + 1)
          { offset := 0, last_match := 0, window := window,
            weak := calculate_weak_checksum window,
            mmap := List.replicate S.length 0, reused_bytes := 0, writes := [] } with
      | done st =>
          rw [hloop] at hop
          dsimp only at hop
          simp only [List.mem_append, List.mem_cons, List.mem_singleton,
            List.mem_map, List.not_mem_nil, or_false] at hop
          rcases hop with ((h1 | h1) | ⟨w, hw, h1⟩) | h1
          · exact Or.inr ⟨with_extension dst "tmp", 0, [], Or.inl h1, rfl⟩
          · exact Or.inr ⟨with_extension dst "tmp", S.length, [],
              Or.inr (Or.inl h1), rfl⟩
          · exact Or.inr ⟨with_extension dst "tmp", w.1, w.2,
              Or.inr (Or.inr h1.symm), rfl⟩
          · exact Or.inl h1
      | fail st =>
          rw [hloop] at hop
          dsimp only at hop
          simp only [List.mem_append, List.mem_cons, List.mem_singleton,
            List.mem_map, List.not_mem_nil, or_false] at hop
          rcases hop with (h1 | h1) | ⟨w, hw, h1⟩
          · exact Or.inr ⟨with_extension dst "tmp", 0, [], Or.inl h1, rfl⟩
          · exact Or.inr ⟨with_extension dst "tmp", S.length, [],
              Or.inr (Or.inl h1), rfl⟩
          · exact Or.inr ⟨with_extension dst "tmp", w.1, w.2,
              Or.inr (Or.inr h1.symm), rfl⟩
      | spin st =>
          rw [hloop] at hop
          dsimp only at hop
          simp only [List.mem_append, List.mem_cons, List.mem_singleton,
            List.mem_map, List.not_mem_nil, or_false] at hop
          rcases hop with (h1 | h1) | ⟨w, hw, h1⟩
          · exact Or.inr ⟨with_extension dst "tmp", 0, [], Or.inl h1, rfl⟩
          · exact Or.inr ⟨with_extension dst "tmp", S.length, [],
              Or.inr (Or.inl h1), rfl⟩
          · exact Or.inr ⟨with_extension dst "tmp", w.1, w.2,
              Or.inr (Or.inr h1.symm), rfl⟩

/-- Every operation of the server trace is either the final rename or
a mutation of the temporary sibling path. -/
lemma serve_ops_targets (instrs : List Instruction) (R : List Nat) (dst : RPath)
    (dst_exists : Bool) :
    ∀ op ∈ serve_ops instrs R dst dst_exists,
      op = FsOp.rename (with_extension dst "tmp") dst ∨
      (∃ p n d,
        (op = FsOp.createTrunc p ∨ op = FsOp.setLen p n ∨ op = FsOp.write p n d) ∧
        p = with_extension dst "tmp") := by
  intro op hop
  rw [serve_ops] at hop
  simp only [List.mem_cons, List.mem_append, List.mem_map] at hop
  rcases hop with (h1 | ⟨w, hw, h1⟩) | h1
  · exact Or.inr ⟨with_extension dst "tmp", 0, [], Or.inl h1, rfl⟩
  · exact Or.inr ⟨with_extension dst "tmp", w.1, w.2, Or.inr (Or.inr h1.symm), rfl⟩
  · by_cases hok : (serve_writes R dst_exists instrs 0).2
    · rw [if_pos hok] at h1
      simp only [List.mem_singleton] at h1
      exact Or.inl h1
    · rw [if_neg hok] at h1
      exact absurd h1 (by simp)

lemma tmp_ne_dst (dst : RPath) (hext : dst.ext ≠ some "tmp") :
    with_extension dst "tmp" ≠ dst := by
  intro he
  exact hext (congrArg RPath.ext he).symm

/-- Safety of every pre-rename prefix of the local delta-path trace:
as long as the final rename has not executed, the destination contents
are untouched (provided the destination does not itself carry the tmp
extension). -/
lemma local_ops_prefix_safe (strongF : List Nat → List Nat) (S R : List Nat) (B : Nat)
    (dst : RPath) (hext : dst.ext ≠ some "tmp") (hBS : B ≤ S.length) :
    ∀ (k : Nat) (fs : RPath → Option (List Nat)),
    FsOp.rename (with_extension dst "tmp") dst
        ∉ (local_sync_ops strongF S R B dst true).take k →
    replay fs ((local_sync_ops strongF S R B dst true).take k) dst = fs dst := by
  intro k fs hnr
  apply replay_preserves_of_targets
  intro op hop
  have hop' := List.mem_of_mem_take hop
  rcases local_sync_ops_targets strongF S R B dst hBS op hop' with h | ⟨p, n, d, hs, hp⟩
  · exact absurd (h ▸ hop) hnr
  · exact ⟨p, n, d, hs, by rw [hp]; exact tmp_ne_dst dst hext⟩

/-- Safety of every pre-rename prefix of the server reassembly trace. -/
lemma serve_ops_prefix_safe (instrs : List Instruction) (R : List Nat) (dst : RPath)
    (dst_exists : Bool) (hext : dst.ext ≠ some "tmp") :
    ∀ (k : Nat) (fs : RPath → Option (List Nat)),
    FsOp.rename (with_extension dst "tmp") dst
        ∉ (serve_ops instrs R dst dst_exists).take k →
    replay fs ((serve_ops instrs R dst dst_exists).take k) dst = fs dst := by
  intro k fs hnr
  apply replay_preserves_of_targets
  intro op hop
  have hop' := List.mem_of_mem_take hop
  rcases serve_ops_targets instrs R dst dst_exists op hop' with h | ⟨p, n, d, hs, hp⟩
  · exact absurd (h ▸ hop) hnr
  · exact ⟨p, n, d, hs, by rw [hp]; exact tmp_ne_dst dst hext⟩

/-- Every block of the partition except possibly the last has the full
width: if a block is not the last one, the remaining length past its
offset exceeds the block size. -/
lemma sig_size_full {B L i : Nat} (hB : 1 ≤ B) (h : i + 1 < signature_count B L) :
    min B (L - B * i) = B := by
  have h2 : i + 2 ≤ (L + B - 1) / B := h
  have h3 : (i + 2) * B ≤ L + B - 1 := (Nat.le_div_iff_mul_le (by omega)).1 h2
  have h4 : (i + 2) * B = B * i + 2 * B := by ring
  exact Nat.min_eq_left (by omega)

/-- The last block of the partition carries the remainder of the file
length modulo the block size, when that remainder is non-zero. -/
lemma sig_last_size {B L i : Nat} (hB : 1 ≤ B) (hr : L % B ≠ 0)
    (h : i + 1 = signature_count B L) : min B (L - B * i) = L % B := by
  obtain ⟨q, r, hL, hrB, hrr⟩ : ∃ q r, L = B * q + r ∧ r < B ∧ L % B = r :=
    ⟨L / B, L % B, (Nat.div_add_mod L B).symm, Nat.mod_lt _ (by omega), rfl⟩
  rw [hrr]
  rw [hrr] at hr
  have hc : signature_count B L = q + 1 := by
    unfold signature_count
    apply Nat.div_eq_of_lt_le
    · have e1 : (q + 1) * B = B * q + B := by ring
      omega
    · have e2 : (q + 1 + 1) * B = B * q + 2 * B := by ring
      omega
  have hi : i = q := by omega
  rw [hi, show L - B * q = r from by omega]
  exact Nat.min_eq_right (by omega)

/-- The sizes of the computed blocks sum to the length of the file:
the partition is an exact cover. -/
lemma checksums_size_sum (strongF : List Nat → List Nat) (B : Nat) (hB : 1 ≤ B) :
    ∀ (fuel : Nat) (l : List Nat), l.length ≤ fuel → ∀ offset,
    ((checksumsGo strongF B fuel offset l).map Block.size).sum = l.length := by
  intro fuel
  induction fuel with
  | zero =>
      intro l hl offset
      have hnil : l = [] := List.length_eq_zero.mp (by omega)
      subst hnil
      rfl
  | succ n ih =>
      intro l hl offset
      by_cases hnil : l = []
      · subst hnil
        rfl
      · rw [checksumsGo_succ strongF B n offset l hnil, if_neg (by omega)]
        simp only [List.map_cons, List.sum_cons]
        rw [ih (l.drop B) (by rw [List.length_drop]; omega) _]
        rw [List.length_drop]
        have hlen0 : 0 < l.length := List.length_pos.mpr hnil
        omega

/-- The reused byte counter of a successful local sync is a multiple
of the block size: every confirmed match contributes exactly one full
block (under a strong digest that distinguishes lengths). -/
lemma sync_file_dvd_reused (strongF : List Nat → List Nat) (S R : List Nat) (B : Nat)
    (hB : 1 ≤ B)
    (hlen : ∀ x y : List Nat, strongF x = strongF y → x.length = y.length) :
    ∀ out, sync_file strongF S R B true = some out → B ∣ out.2.reused_bytes := by
  intro out hout
  rw [sync_file, if_neg (by simp)] at hout
  by_cases hsmall : S.length < B
  · rw [if_pos hsmall] at hout
    have h := Option.some.inj hout
    rw [← h]
    exact Dvd.intro 0 rfl
  · rw [if_neg hsmall] at hout
    have hminB : min B S.length = B := by omega
    rw [read_exact_ok (by omega)] at hout
    dsimp only at hout
    obtain ⟨st', hloop, hq1, hq2, hq3, hq4, hq5, hq6⟩ :=
      sync_file_loop_main strongF S R B hB hlen (S.length + 1)
        { offset := 0, last_match := 0,
          window := (S.drop 0).take (min B S.length),
          weak := calculate_weak_checksum ((S.drop 0).take (min B S.length)),
          mmap := List.replicate S.length 0, reused_bytes := 0, writes := [] }
        (by try dsimp only
            omega)
        (by intro hgx
            try dsimp only
            rw [hminB])
        (by try dsimp only
            exact List.length_replicate S.length 0)
        (by try dsimp only
            omega)
        (by try dsimp only
            omega)
        (by try dsimp only
            omega)
        (by try dsimp only
            exact Dvd.intro 0 rfl)
        (by intro _
            try dsimp only
            rfl)
    rw [hloop] at hout
    dsimp only at hout
    by_cases htail : st'.last_match < S.length
    · rw [if_pos htail] at hout
      cases hcp : copy_from_slice st'.mmap st'.last_match st'.mmap.length
          (read_to_end S st'.last_match) with
      | none =>
          rw [hcp] at hout
          exact absurd hout (by simp)
      | some m =>
          rw [hcp] at hout
          dsimp only at hout
          have h := Option.some.inj hout
          rw [← h]
          exact hq5
    · rw [if_neg htail] at hout
      have h := Option.some.inj hout
      rw [← h]
      exact hq5

/-- Claim C1: for every source S and reference R processed with the
same positive block size, a run of the local sync against an existing
destination succeeds and leaves the destination holding exactly the
bytes of S, with counters summing to the length of S.  The strong
digest is assumed collision free (injective), as the algorithm relies
on it. -/
theorem C1_local_sync_yields_source (strongF : List Nat → List Nat) (S R : List Nat)
    (B : Nat) (hB : 1 ≤ B) (hinj : Function.Injective strongF) :
    ∃ res : TransferResult, sync_file strongF S R B true = some (S, res) ∧
      res.new_bytes + res.reused_bytes = S.length :=
  sync_file_correct strongF S R B hB hinj

theorem C1_local_sync_yields_source_witness :
    ∃ res : TransferResult,
      sync_file (fun l => l) [0, 1, 2, 3, 4, 5, 6, 7, 8, 9]
          [0, 1, 2, 3, 4, 5, 99, 7, 8, 9] 4 true
        = some ([0, 1, 2, 3, 4, 5, 6, 7, 8, 9], res) ∧
      res.new_bytes + res.reused_bytes
        = ([0, 1, 2, 3, 4, 5, 6, 7, 8, 9] : List Nat).length :=
  C1_local_sync_yields_source (fun l => l) [0, 1, 2, 3, 4, 5, 6, 7, 8, 9]
    [0, 1, 2, 3, 4, 5, 99, 7, 8, 9] 4 (by decide) (fun a b h => h)

/-- Claim C2: for every byte sequence, window start k and window
length n with 1 ≤ n and k + n < length, the rolling update applied to
the window data[k..k+n) with departing byte data[k] and arriving byte
data[k+n] equals the from-scratch weak checksum of data[k+1..k+n+1). -/
theorem C2_rolling_checksum_identity (data : List Nat) (k n : Nat) (hn : 1 ≤ n)
    (hkn : k + n < data.length) :
    update_weak_checksum (data.getD k 0) (data.getD (k + n) 0)
        (calculate_weak_checksum ((data.drop k).take n)) n
      = calculate_weak_checksum ((data.drop (k + 1)).take n) := by
  have hk : k < data.length := by omega
  have hget : data.getD k 0 = data.get ⟨k, hk⟩ := by
    rw [List.getD_eq_getElem data 0 hk]
    rfl
  have hd : data.drop k = data.get ⟨k, hk⟩ :: data.drop (k + 1) := by
    rw [List.drop_eq_getElem_cons hk]
    rfl
  have hwin : (data.drop k).take n = data.getD k 0 :: (data.drop (k + 1)).take (n - 1) := by
    conv_lhs => rw [hd, show n = (n - 1) + 1 from (Nat.succ_pred_eq_of_pos hn).symm]
    rw [List.take_succ_cons, hget]
  have hgetb : (data.drop (k + n)).take 1 = [data.getD (k + n) 0] := by
    rw [take_one_eq data (k + n) hkn, List.getD_eq_getElem data 0 hkn]
    rfl
  have hrest := slice_shift data k n hn (by omega) (data.getD k 0)
    ((data.drop (k + 1)).take (n - 1)) hwin
  have hlen : ((data.drop (k + 1)).take (n - 1)).length = n - 1 := by
    rw [List.length_take, List.length_drop]
    omega
  have key := update_weak_checksum_rolls (data.getD k 0)
    ((data.drop (k + 1)).take (n - 1)) (data.getD (k + n) 0)
  rw [hlen, Nat.sub_add_cancel hn, ← hwin, ← hgetb, hrest] at key
  exact key

theorem C2_rolling_checksum_identity_witness :
    update_weak_checksum 2 5 (calculate_weak_checksum [2, 3, 4]) 3
      = calculate_weak_checksum [3, 4, 5] :=
  C2_rolling_checksum_identity [1, 2, 3, 4, 5] 1 3 (by decide) (by decide)

/-- Claim C3 (amended): on the delta path of the local sync and on the
server reassembly, every operation before the final rename mutates
only the temporary sibling path, so replaying any prefix of the
operation trace that does not contain the rename leaves the
destination contents unchanged — PROVIDED the destination path does
not itself carry the tmp extension.  The original claim is false
without that proviso: Path::with_extension maps a destination ending
in .tmp to itself, so the temporary and the destination collide (see
the counterexample). -/
theorem C3_pre_rename_prefix_preserves_destination
    (strongF : List Nat → List Nat) (S R : List Nat) (B : Nat) (dst : RPath)
    (instrs : List Instruction) (dst_exists : Bool)
    (hext : dst.ext ≠ some "tmp") (hBS : B ≤ S.length) :
    (∀ (k : Nat) (fs : RPath → Option (List Nat)),
      FsOp.rename (with_extension dst "tmp") dst
          ∉ (local_sync_ops strongF S R B dst true).take k →
      replay fs ((local_sync_ops strongF S R B dst true).take k) dst = fs dst) ∧
    (∀ (k : Nat) (fs : RPath → Option (List Nat)),
      FsOp.rename (with_extension dst "tmp") dst
          ∉ (serve_ops instrs R dst dst_exists).take k →
      replay fs ((serve_ops instrs R dst dst_exists).take k) dst = fs dst) :=
  ⟨local_ops_prefix_safe strongF S R B dst hext hBS,
   serve_ops_prefix_safe instrs R dst dst_exists hext⟩

theorem C3_pre_rename_prefix_preserves_destination_witness :
    replay (fun _ => (none : Option (List Nat)))
        ((local_sync_ops (fun l => l) [1, 2, 3, 4, 5, 6, 7, 8] [42] 4
          ⟨"data", some "txt"⟩ true).take 1)
        ⟨"data", some "txt"⟩ = none :=
  (C3_pre_rename_prefix_preserves_destination (fun l => l) [1, 2, 3, 4, 5, 6, 7, 8]
      [42] 4 ⟨"data", some "txt"⟩ [] true (by decide) (by decide)).1
    1 (fun _ => (none : Option (List Nat))) (by decide)

/-- Claim C3 counterexample: a destination whose extension is already
tmp collides with its temporary sibling, so the very first operation
of the delta path (creating and truncating the temporary) erases the
destination contents before any rename: the ops prefix of length one
contains no rename yet replaying it changes the destination from
some [42] to some []. -/
theorem C3_tmp_destination_counterexample :
    with_extension ⟨"data", some "tmp"⟩ "tmp" = (⟨"data", some "tmp"⟩ : RPath) ∧
    FsOp.rename (with_extension ⟨"data", some "tmp"⟩ "tmp") ⟨"data", some "tmp"⟩
        ∉ (local_sync_ops (fun l => l) [1, 2, 3, 4, 5, 6, 7, 8] [42] 4
          ⟨"data", some "tmp"⟩ true).take 1 ∧
    replay (fun p => if p = ⟨"data", some "tmp"⟩ then some [42] else none)
        ((local_sync_ops (fun l => l) [1, 2, 3, 4, 5, 6, 7, 8] [42] 4
          ⟨"data", some "tmp"⟩ true).take 1)
        ⟨"data", some "tmp"⟩ = some [] := by decide

/-- Claim C4: for every file and positive block size, the computed
signatures have offsets exactly 0, B, 2B, ... (equal to the prefix
sums of the sizes, hence strictly increasing), sizes all B except the
last (which carries length mod B when the length is not a multiple of
B), sizes summing to the file length, weak and strong checksums
computed over exactly the bytes [offset, offset + size), and an empty
file yields an empty sequence. -/
theorem C4_checksum_blocks_partition (strongF : List Nat → List Nat) (B : Nat)
    (hB : 1 ≤ B) (l : List Nat) :
    (calculate_checksums strongF B 0 l).length = signature_count B l.length ∧
    (∀ i (hi : i < (calculate_checksums strongF B 0 l).length),
      ((calculate_checksums strongF B 0 l).get ⟨i, hi⟩).offset = B * i) ∧
    (∀ i (hi : i < (calculate_checksums strongF B 0 l).length),
      (((calculate_checksums strongF B 0 l).take i).map Block.size).sum
        = ((calculate_checksums strongF B 0 l).get ⟨i, hi⟩).offset) ∧
    ((calculate_checksums strongF B 0 l).map Block.size).sum = l.length ∧
    (∀ i (hi : i < (calculate_checksums strongF B 0 l).length),
      i + 1 < (calculate_checksums strongF B 0 l).length →
      ((calculate_checksums strongF B 0 l).get ⟨i, hi⟩).size = B) ∧
    (∀ i (hi : i < (calculate_checksums strongF B 0 l).length),
      i + 1 = (calculate_checksums strongF B 0 l).length → l.length % B ≠ 0 →
      ((calculate_checksums strongF B 0 l).get ⟨i, hi⟩).size = l.length % B) ∧
    (∀ b ∈ calculate_checksums strongF B 0 l,
      b.offset + b.size ≤ l.length ∧
      b.weak_checksum = calculate_weak_checksum ((l.drop b.offset).take b.size) ∧
      b.strong_checksum = strongF ((l.drop b.offset).take b.size)) ∧
    calculate_checksums strongF B 0 ([] : List Nat) = [] := by
  have hclosed : calculate_checksums strongF B 0 l
      = (List.range (signature_count B l.length)).map (fun i =>
          { offset := B * i, size := min B (l.length - B * i),
            weak_checksum := calculate_weak_checksum ((l.drop (B * i)).take B),
            strong_checksum := strongF ((l.drop (B * i)).take B) : Block }) := by
    rw [calculate_checksums, checksumsGo_closed strongF B hB l.length l le_rfl 0]
    simp only [Nat.zero_add]
  have hlen : (calculate_checksums strongF B 0 l).length = signature_count B l.length := by
    rw [hclosed, List.length_map, List.length_range]
  have hgeti : ∀ (i : Nat) (hi : i < (calculate_checksums strongF B 0 l).length),
      (calculate_checksums strongF B 0 l).get ⟨i, hi⟩
        = { offset := B * i, size := min B (l.length - B * i),
            weak_checksum := calculate_weak_checksum ((l.drop (B * i)).take B),
            strong_checksum := strongF ((l.drop (B * i)).take B) } := by
    intro i hi
    rw [List.get_of_eq hclosed ⟨i, hi⟩]
    simp only [List.get_eq_getElem, List.getElem_map, List.getElem_range]
  refine ⟨hlen, ?_, ?_, ?_, ?_, ?_, ?_, rfl⟩
  · intro i hi
    rw [hgeti i hi]
  · intro i hi
    rw [hgeti i hi]
    show (((calculate_checksums strongF B 0 l).take i).map Block.size).sum = B * i
    rw [hclosed, ← List.map_take, List.take_range, List.map_map]
    have hic : min i (signature_count B l.length) = i := by
      rw [hlen] at hi
      omega
    rw [hic]
    have hrep : (List.range i).map
        (Block.size ∘ (fun j =>
          { offset := B * j, size := min B (l.length - B * j),
            weak_checksum := calculate_weak_checksum ((l.drop (B * j)).take B),
            strong_checksum := strongF ((l.drop (B * j)).take B) : Block }))
        = List.replicate i B := by
      rw [List.eq_replicate_iff]
      constructor
      · rw [List.length_map, List.length_range]
      · intro b hb
        obtain ⟨j, hj, hbj⟩ := List.mem_map.1 hb
        have hji : j < i := List.mem_range.1 hj
        rw [← hbj]
        show min B (l.length - B * j) = B
        rw [hlen] at hi
        exact sig_size_full hB (by omega)
    rw [hrep, List.sum_replicate, smul_eq_mul, Nat.mul_comm]
  · rw [calculate_checksums]
    exact checksums_size_sum strongF B hB l.length l le_rfl 0
  · intro i hi hilt
    rw [hgeti i hi]
    show min B (l.length - B * i) = B
    rw [hlen] at hilt
    exact sig_size_full hB hilt
  · intro i hi hieq hr
    rw [hgeti i hi]
    show min B (l.length - B * i) = l.length % B
    rw [hlen] at hieq
    exact sig_last_size hB hr hieq
  · intro b hb
    obtain ⟨h1, _, _, h4, h5⟩ := block_mem_facts strongF B hB l b hb
    exact ⟨h1, h5, h4⟩

theorem C4_checksum_blocks_partition_witness :
    ((calculate_checksums (fun l => l) 2 0 [10, 20, 30, 40, 50]).map Block.size).sum
      = ([10, 20, 30, 40, 50] : List Nat).length :=
  (C4_checksum_blocks_partition (fun l => l) 2 (by decide) [10, 20, 30, 40, 50]).2.2.2.1

/-- Claim C5: for every source file, the counters of a successful sync
sum to the source length, for the local file sync (any destination
state) and for the network client sync (any received block table);
both counters are naturals, hence non-negative. -/
theorem C5_counters_sum_to_source_length (strongF : List Nat → List Nat)
    (S R : List Nat) (B : Nat) (dst_exists : Bool) (blocks : List Block) :
    (∀ out, sync_file strongF S R B dst_exists = some out →
      out.2.new_bytes + out.2.reused_bytes = S.length) ∧
    (∀ out, network_sync strongF S blocks B = some out →
      out.2.new_bytes + out.2.reused_bytes = S.length) :=
  ⟨sync_file_counters strongF S R B dst_exists,
   fun out h => by
    rw [network_sync_result strongF S blocks B out h]
    rfl⟩

theorem C5_counters_sum_to_source_length_witness :
    (([0, 1, 2, 3, 4, 5, 6, 7, 8, 9], { new_bytes := 6, reused_bytes := 4 })
        : List Nat × TransferResult).2.new_bytes
      + (([0, 1, 2, 3, 4, 5, 6, 7, 8, 9], { new_bytes := 6, reused_bytes := 4 })
        : List Nat × TransferResult).2.reused_bytes
      = ([0, 1, 2, 3, 4, 5, 6, 7, 8, 9] : List Nat).length :=
  (C5_counters_sum_to_source_length (fun l => l) [0, 1, 2, 3, 4, 5, 6, 7, 8, 9]
      [0, 1, 2, 3, 4, 5, 99, 7, 8, 9] 4 true []).1 _ (by decide)

/-- Claim C6 (amended): on byte-identical files the sync reuses the
full-block prefix only: reused_bytes = length − length mod B and
new_bytes = length mod B for the local sync, and the network client
emits COPY instructions followed by one trailing DATA exactly when the
length is not a multiple of B.  The original claim (reused_bytes =
length and no literal at all, for every length) is false whenever the
length is not a multiple of the block size: the short tail is always
sent as a literal (see the counterexample). -/
theorem C6_identical_files_reuse (strongF : List Nat → List Nat) (S : List Nat)
    (B : Nat) (hB : 1 ≤ B) (hinj : Function.Injective strongF) (hBS : B ≤ S.length) :
    sync_file strongF S S B true
      = some (S, { new_bytes := S.length % B,
                   reused_bytes := S.length - S.length % B }) ∧
    (∃ copies : List Instruction,
      network_sync strongF S (calculate_checksums strongF B 0 S) B
        = some (copies ++ (if S.length % B = 0 then []
            else [Instruction.data (S.drop (B * (S.length / B)))]),
          { new_bytes := S.length, reused_bytes := 0 }) ∧
      ∀ i ∈ copies, instruction_is_copy i = true) :=
  ⟨sync_file_identical strongF S B hB hinj,
   network_sync_identical strongF S B hB hinj hBS⟩

theorem C6_identical_files_reuse_witness :
    sync_file (fun l => l) [0, 1, 2, 3, 4, 5, 6, 7] [0, 1, 2, 3, 4, 5, 6, 7] 4 true
      = some ([0, 1, 2, 3, 4, 5, 6, 7], { new_bytes := 0, reused_bytes := 8 }) :=
  (C6_identical_files_reuse (fun l => l) [0, 1, 2, 3, 4, 5, 6, 7] 4 (by decide)
    (fun a b h => h) (by decide)).1

/-- Claim C6 counterexample: a five byte file synced onto an identical
copy with block size four reuses only 4 bytes, not 5, and the network
client emits a DATA instruction for the one byte tail, so the file is
not fully matched and not every instruction is a COPY. -/
theorem C6_short_tail_counterexample :
    sync_file (fun l => l) [0, 1, 2, 3, 4] [0, 1, 2, 3, 4] 4 true
      = some ([0, 1, 2, 3, 4], { new_bytes := 1, reused_bytes := 4 }) ∧
    ¬ ((4 : Nat) = ([0, 1, 2, 3, 4] : List Nat).length) ∧
    network_sync (fun l => l) [0, 1, 2, 3, 4]
        (calculate_checksums (fun l => l) 4 0 [0, 1, 2, 3, 4]) 4
      = some ([Instruction.copy 0 4, Instruction.data [4]],
          { new_bytes := 5, reused_bytes := 0 }) ∧
    instruction_is_data (Instruction.data [4]) = true := by decide

/-- Claim C7: when the client received NOBLK it scans against an empty
signature table, and then every instruction of a successful run is a
DATA frame: no COPY is ever sent. -/
theorem C7_noblk_all_data (strongF : List Nat → List Nat) (S : List Nat) (B : Nat) :
    ∀ out, network_sync strongF S [] B = some out →
      ∀ i ∈ out.1, instruction_is_data i = true :=
  network_sync_empty_table strongF S B

theorem C7_noblk_all_data_witness :
    instruction_is_data (Instruction.data [1, 2, 3, 4, 5, 6]) = true :=
  C7_noblk_all_data (fun l => l) [1, 2, 3, 4, 5, 6] 4
    ([Instruction.data [1, 2, 3, 4, 5, 6]], { new_bytes := 6, reused_bytes := 0 })
    (by decide) (Instruction.data [1, 2, 3, 4, 5, 6]) (by decide)

/-- Claim C8 is false of the code: NetworkSyncer::sync returns
reused_bytes = 0 regardless of the COPY instructions issued
(network_sync.rs line 185, under a TODO comment).  On a four byte file
identical to the reference the client issues one COPY of 4 bytes
(copy_total = 4) yet reports reused_bytes = 0 and new_bytes = 4. -/
theorem C8_reused_bytes_stuck_at_zero :
    network_sync (fun l => l) [0, 1, 2, 3]
        (calculate_checksums (fun l => l) 4 0 [0, 1, 2, 3]) 4
      = some ([Instruction.copy 0 4], { new_bytes := 4, reused_bytes := 0 }) ∧
    copy_total [Instruction.copy 0 4] = 4 ∧
    ¬ ((0 : Nat) = copy_total [Instruction.copy 0 4]) := by decide

/-- Claim C9: under the hypothesis that the strong digest
distinguishes byte strings of different lengths, every block found by
the weak-then-strong lookup against a window of width B has size
exactly B (the short trailing block of the reference never matches),
the local sync never aborts on the B-wide slice copy, and the reused
byte counter is a multiple of B (each match contributes exactly B). -/
theorem C9_matches_are_full_width (strongF : List Nat → List Nat) (B : Nat)
    (hB : 1 ≤ B)
    (hlen : ∀ x y : List Nat, strongF x = strongF y → x.length = y.length)
    (S R : List Nat) :
    (∀ (w : List Nat) (wk : Nat) (b : Block), w.length = B →
      find_match (calculate_checksums strongF B 0 R) wk (strongF w) = some b →
      b.size = B) ∧
    sync_file strongF S R B true ≠ none ∧
    (∀ out, sync_file strongF S R B true = some out → B ∣ out.2.reused_bytes) :=
  ⟨fun w wk b hw h => find_match_full_width strongF B R hB hlen w hw wk b h,
   sync_file_isSome strongF S R B hB hlen,
   sync_file_dvd_reused strongF S R B hB hlen⟩

theorem C9_matches_are_full_width_witness :
    (4 : Nat) ∣ (([0, 1, 2, 3, 4, 5, 6, 7, 8, 9], { new_bytes := 6, reused_bytes := 4 })
        : List Nat × TransferResult).2.reused_bytes :=
  (C9_matches_are_full_width (fun l => l) 4 (by decide)
      (fun x y h => congrArg List.length h) [0, 1, 2, 3, 4, 5, 6, 7, 8, 9]
      [0, 1, 2, 3, 4, 5, 99, 7, 8, 9]).2.2 _ (by decide)

/-- Claim C10: both sliding-window scan loops terminate on every
finite source: with fuel exceeding the remaining bytes the loop never
exhausts its fuel (each iteration advances the offset by B on a match
or by 1 on a slide), the loop exits immediately once offset + B
exceeds the source length, and the offset never decreases. -/
theorem C10_scan_loop_terminates (strongF : List Nat → List Nat) (S R : List Nat)
    (blocks : List Block) (B : Nat) (hB : 1 ≤ B) :
    (∀ (fuel : Nat) (st : ScanState), S.length - st.offset < fuel →
      (sync_file_loop strongF S R blocks B fuel st).isSpin = false) ∧
    (∀ (fuel : Nat) (st : ScanState), S.length < st.offset + B →
      sync_file_loop strongF S R blocks B (fuel + 1) st = .done st) ∧
    (∀ (fuel : Nat) (st st' : ScanState),
      sync_file_loop strongF S R blocks B fuel st = .done st' →
      st.offset ≤ st'.offset) ∧
    (∀ (fuel : Nat) (st : NetState), S.length - st.pos < fuel →
      (network_scan_loop strongF S blocks B fuel st).isSpin = false) ∧
    (∀ (fuel : Nat) (st : NetState), S.length < st.pos + B →
      network_scan_loop strongF S blocks B (fuel + 1) st = .done st) ∧
    (∀ (fuel : Nat) (st st' : NetState),
      network_scan_loop strongF S blocks B fuel st = .done st' →
      st.pos ≤ st'.pos) :=
  ⟨fun fuel st h => sync_file_loop_no_spin strongF S R blocks B hB fuel st h,
   fun fuel st h => sync_file_loop_exit strongF S R blocks B fuel st h,
   fun fuel st st' h => sync_file_loop_offset_mono strongF S R blocks B fuel st st' h,
   fun fuel st h => network_scan_loop_no_spin strongF S blocks B hB fuel st h,
   fun fuel st h => network_scan_loop_exit strongF S blocks B fuel st h,
   fun fuel st st' h => network_scan_loop_pos_mono strongF S blocks B fuel st st' h⟩

theorem C10_scan_loop_terminates_witness :
    sync_file_loop (fun l => l) [0, 1] [] [] 4 (0 + 1)
        { offset := 0, last_match := 0, window := [], weak := 0,
          mmap := [], reused_bytes := 0, writes := [] }
      = ScanResult.done
          { offset := 0, last_match := 0, window := [], weak := 0,
            mmap := [], reused_bytes := 0, writes := [] } :=
  (C10_scan_loop_terminates (fun l => l) [0, 1] [] [] 4 (by decide)).2.1 0
    { offset := 0, last_match := 0, window := [], weak := 0,
      mmap := [], reused_bytes := 0, writes := [] } (by decide)

end Rsynx
